import Mathlib

/-!
Verification of the Supermarket Shopping Assistant core
(backend/pathfinding.py, backend/search.py, backend/ai_pipeline.py,
backend/api.py) via a shallow embedding in Lean.

Machine integers are modelled as `Int`/`Nat`; Python floats that carry
fuzzy-match scores are modelled as exact rationals (`Rat`).  External
collaborators (the rapidfuzz scorers, the spell-checker dictionaries)
are abstract function parameters; everything else is translated from
the Python source.
-/

set_option maxRecDepth 100000

namespace SSA

/-! ## Python string primitives -/

/-- Python's substring test `needle in hay`, on lists of characters.
`listSubstr n []` is `n.isEmpty` because `"" in ""` is `True` in Python. -/
def listSubstr (n : List Char) : List Char → Bool
  | [] => n.isEmpty
  | c :: t => n.isPrefixOf (c :: t) || listSubstr n t

/-- Python `needle in hay` on strings. -/
def pyIn (needle hay : String) : Bool := listSubstr needle.data hay.data

/-- Python `s.startswith(pre)`. -/
def pyStartsWith (s pre : String) : Bool := pre.data.isPrefixOf s.data

/-- Python `s.endswith(suf)`. -/
def pyEndsWith (s suf : String) : Bool := suf.data.isSuffixOf s.data

/-- Python `s.strip()` (whitespace at both ends). -/
def pyStrip (s : String) : String :=
  ⟨((s.data.dropWhile Char.isWhitespace).reverse.dropWhile
      Char.isWhitespace).reverse⟩

/-- Python `s.lower()` (over the character list, so that it computes by
kernel reduction; `String.toLower` is extensionally the same map). -/
def pyLower (s : String) : String := ⟨s.data.map Char.toLower⟩

/-- Splitting a character list at every separator satisfying `p`,
keeping empty pieces (the underlying scheme of Python's `str.split`). -/
def splitChars (p : Char → Bool) (s : List Char) : List (List Char) :=
  s.foldr
    (fun c acc =>
      if p c then [] :: acc
      else match acc with
        | [] => [[c]]
        | w :: ws => (c :: w) :: ws)
    [[]]

/-- Python `s.split()` — split on whitespace runs, dropping empty pieces. -/
def pySplitWs (s : String) : List String :=
  ((splitChars Char.isWhitespace s.data).filter (fun w => w ≠ [])).map
    (fun w => (⟨w⟩ : String))

lemma listSubstr_of_isPrefixOf {n h : List Char} (hp : n.isPrefixOf h = true) :
    listSubstr n h = true := by
  cases h with
  | nil =>
      have : n = [] := by
        cases n with
        | nil => rfl
        | cons a t => simp [List.isPrefixOf] at hp
      simp [this, listSubstr]
  | cons c t => simp [listSubstr, hp]

lemma listSubstr_of_prefix {n h : List Char} (hp : n <+: h) :
    listSubstr n h = true :=
  listSubstr_of_isPrefixOf (List.isPrefixOf_iff_prefix.mpr hp)

lemma listSubstr_of_suffix {n : List Char} : ∀ {h : List Char}, n <:+ h →
    listSubstr n h = true := by
  intro h
  induction h with
  | nil =>
      intro hs
      have : n = [] := List.eq_nil_of_suffix_nil hs
      simp [this, listSubstr]
  | cons c t ih =>
      intro hs
      rcases List.suffix_cons_iff.mp hs with h1 | h2
      · exact listSubstr_of_prefix (h1 ▸ List.prefix_refl _)
      · simp [listSubstr, ih h2]

/-- An occurrence-position characterisation of `listSubstr`. -/
lemma listSubstr_iff_exists_drop {n h : List Char} :
    listSubstr n h = true ↔ ∃ i, n.isPrefixOf (h.drop i) = true := by
  induction h with
  | nil =>
      simp only [listSubstr, List.drop_nil]
      constructor
      · intro he
        exact ⟨0, by cases n with
          | nil => simp [List.isPrefixOf]
          | cons a t => simp [List.isEmpty] at he⟩
      · rintro ⟨i, hi⟩
        cases n with
        | nil => simp [List.isEmpty]
        | cons a t => simp [List.isPrefixOf] at hi
  | cons c t ih =>
      simp only [listSubstr, Bool.or_eq_true]
      constructor
      · rintro (hp | hs)
        · exact ⟨0, by simpa using hp⟩
        · rcases ih.mp hs with ⟨i, hi⟩
          exact ⟨i + 1, by simpa using hi⟩
      · rintro ⟨i, hi⟩
        cases i with
        | zero => exact Or.inl (by simpa using hi)
        | succ j => exact Or.inr (ih.mpr ⟨j, by simpa using hi⟩)

lemma listSubstr_append_left {n c : List Char} (h : listSubstr n c = true)
    (x : List Char) : listSubstr n (x ++ c) = true := by
  rcases listSubstr_iff_exists_drop.mp h with ⟨i, hi⟩
  refine listSubstr_iff_exists_drop.mpr ⟨x.length + i, ?_⟩
  have : (x ++ c).drop (x.length + i) = c.drop i := by
    rw [List.drop_append_eq_append_drop]
    simp
  rw [this]; exact hi

/-! ## Data model

Records carry exactly the fields the verified operations read.  The
Python dicts also carry ids, prices, quantities, variants and shelf
numbers; no claim depends on those, and the functions embedded below
never read them. -/

/-- A catalog product row, as joined with its aisle by the database layer.
`sectionName` models the Python dict key `section` (a Lean keyword). -/
structure Product where
  name : String
  brand : String
  category : String
  keywords : String
  aisle_name : String
  sectionName : String
  deriving DecidableEq, Repr

/-- An aisle row: name, section label and grid coordinates. -/
structure Aisle where
  name : String
  sectionName : String
  grid_x : ℤ
  grid_y : ℤ
  deriving DecidableEq, Repr

/-! ## Grid navigator (backend/pathfinding.py) -/

/-- A grid coordinate `(row, col)`, a Python `(x, y)` tuple of ints. -/
abbrev Cell := ℤ × ℤ

/-- The bounds test `0 <= x < rows and 0 <= y < cols`. -/
def inBounds (rows cols : ℤ) (c : Cell) : Prop :=
  0 ≤ c.1 ∧ c.1 < rows ∧ 0 ≤ c.2 ∧ c.2 < cols

instance (rows cols : ℤ) (c : Cell) : Decidable (inBounds rows cols c) := by
  unfold inBounds; infer_instance

/-- Manhattan distance between two cells. -/
def mdist (a b : Cell) : ℕ := (a.1 - b.1).natAbs + (a.2 - b.2).natAbs

/-- Two cells are adjacent when they differ by one unit in exactly one
coordinate. -/
def adjacent (a b : Cell) : Prop := mdist a b = 1

/-- The 4-directional movement table of `bfs_path`:
`directions = [(0, 1), (0, -1), (1, 0), (-1, 0)]`. -/
def dirs4 : List Cell := [(0, 1), (0, -1), (1, 0), (-1, 0)]

/-- `nx, ny = x + dx, y + dy`. -/
def cadd (c d : Cell) : Cell := (c.1 + d.1, c.2 + d.2)

/-- The body of the `for dx, dy in directions` loop of `bfs_path`: try each
remaining direction against the popped cell `c` (whose path is `path`),
growing `visited` and the queue, and returning the new path early when the
neighbour is `tgt`.  The first component is `some found` exactly when the
Python loop executes `return new_path`. -/
def bfsExpand (tgt : Cell) (rows cols : ℤ) (c : Cell) (path : List Cell) :
    List Cell → List Cell → List (Cell × List Cell) →
    Option (List Cell) × List Cell × List (Cell × List Cell)
  | [], visited, queue => (none, visited, queue)
  | d :: ds, visited, queue =>
      let n := cadd c d
      if inBounds rows cols n ∧ n ∉ visited then
        let newPath := path ++ [n]
        if n = tgt then (some newPath, n :: visited, queue)
        else bfsExpand tgt rows cols c path ds (n :: visited) (queue ++ [(n, newPath)])
      else bfsExpand tgt rows cols c path ds visited queue

/-- The `while queue` loop of `bfs_path`.  The queue holds `(cell, path)`
pairs, popped at the front and appended at the back, exactly as Python's
`deque`.  Each iteration pops one entry, so the loop runs at most once per
enqueue, and every enqueued cell is fresh; `rows*cols + 1` fuel therefore
always suffices (proved below), making the `0` case dead code. -/
def bfsLoop (tgt : Cell) (rows cols : ℤ) :
    ℕ → List Cell → List (Cell × List Cell) → Option (List Cell)
  | 0, _, _ => none
  | _ + 1, _, [] => none
  | fuel + 1, visited, (c, path) :: rest =>
      match bfsExpand tgt rows cols c path dirs4 visited rest with
      | (some found, _, _) => some found
      | (none, visited2, queue2) => bfsLoop tgt rows cols fuel visited2 queue2

/-- `bfs_path(grid, start, end, rows, cols)`.  The `grid` argument is unused
in the Python body too — only the bounds are consulted. -/
def bfs_path (grid : List (List ℕ)) (start tgt : Cell) (rows cols : ℤ) :
    Option (List Cell) :=
  let _ := grid
  if start = tgt then some [start]
  else bfsLoop tgt rows cols (rows.toNat * cols.toNat + 1) [start] [(start, [start])]

/-! ### Geometry of the open grid -/

lemma mdist_self (a : Cell) : mdist a a = 0 := by simp [mdist]

lemma mdist_eq_zero_iff {a b : Cell} : mdist a b = 0 ↔ a = b := by
  rw [mdist, Prod.ext_iff]; omega

lemma adjacent_cadd {d : Cell} (hd : d ∈ dirs4) (c : Cell) : adjacent c (cadd c d) := by
  simp only [dirs4, List.mem_cons, List.not_mem_nil, or_false] at hd
  rcases hd with h | h | h | h <;> subst h <;> simp [adjacent, mdist, cadd]

/-- A unit step changes the Manhattan distance from any fixed cell by
exactly one. -/
lemma mdist_cadd_step {d : Cell} (hd : d ∈ dirs4) (s c : Cell) :
    mdist s (cadd c d) = mdist s c + 1 ∨ mdist s c = mdist s (cadd c d) + 1 := by
  simp only [dirs4, List.mem_cons, List.not_mem_nil, or_false] at hd
  rcases hd with h | h | h | h <;> subst h <;> simp only [mdist, cadd] <;> omega

/-- Every in-bounds cell at positive distance from `s` has an in-bounds
4-neighbour one step closer to `s` (step one coordinate toward `s`). -/
lemma exists_toward {rows cols : ℤ} {s v : Cell} (hs : inBounds rows cols s)
    (hv : inBounds rows cols v) (h : 0 < mdist s v) :
    ∃ u d, d ∈ dirs4 ∧ v = cadd u d ∧ inBounds rows cols u ∧
      mdist s u + 1 = mdist s v := by
  obtain ⟨hs1, hs2, hs3, hs4⟩ := hs
  obtain ⟨hv1, hv2, hv3, hv4⟩ := hv
  rcases lt_trichotomy v.1 s.1 with h1 | h1 | h1
  · refine ⟨(v.1 + 1, v.2), (-1, 0), by simp [dirs4], ?_, ?_, ?_⟩
    · simp only [cadd, Prod.ext_iff]; constructor <;> omega
    · exact ⟨by omega, by omega, hv3, hv4⟩
    · simp only [mdist] at h ⊢; omega
  · rcases lt_trichotomy v.2 s.2 with h2 | h2 | h2
    · refine ⟨(v.1, v.2 + 1), (0, -1), by simp [dirs4], ?_, ?_, ?_⟩
      · simp only [cadd, Prod.ext_iff]; constructor <;> omega
      · exact ⟨hv1, hv2, by omega, by omega⟩
      · simp only [mdist] at h ⊢; omega
    · exfalso; simp only [mdist] at h; omega
    · refine ⟨(v.1, v.2 - 1), (0, 1), by simp [dirs4], ?_, ?_, ?_⟩
      · simp only [cadd, Prod.ext_iff]; constructor <;> omega
      · exact ⟨hv1, hv2, by omega, by omega⟩
      · simp only [mdist] at h ⊢; omega
  · refine ⟨(v.1 - 1, v.2), (1, 0), by simp [dirs4], ?_, ?_, ?_⟩
    · simp only [cadd, Prod.ext_iff]; constructor <;> omega
    · exact ⟨by omega, by omega, hv3, hv4⟩
    · simp only [mdist] at h ⊢; omega

/-! ### Counting unvisited cells (for fuel adequacy) -/

/-- The finite set of in-bounds cells. -/
def gridCells (rows cols : ℤ) : Finset Cell :=
  Finset.Icc 0 (rows - 1) ×ˢ Finset.Icc 0 (cols - 1)

lemma mem_gridCells {rows cols : ℤ} {c : Cell} :
    c ∈ gridCells rows cols ↔ inBounds rows cols c := by
  simp only [gridCells, Finset.mem_product, Finset.mem_Icc, inBounds]
  omega

lemma card_gridCells (rows cols : ℤ) :
    (gridCells rows cols).card = rows.toNat * cols.toNat := by
  have h1 : rows - 1 + 1 - 0 = rows := by ring
  have h2 : cols - 1 + 1 - 0 = cols := by ring
  simp only [gridCells, Finset.card_product, Int.card_Icc, h1, h2]

/-- The number of in-bounds cells not yet visited. -/
def unvisited (rows cols : ℤ) (V : List Cell) : ℕ :=
  ((gridCells rows cols).filter (fun c => c ∉ V)).card

lemma unvisited_le (rows cols : ℤ) (V : List Cell) :
    unvisited rows cols V ≤ rows.toNat * cols.toNat := by
  rw [unvisited, ← card_gridCells rows cols]
  exact Finset.card_filter_le _ _

lemma unvisited_cons {rows cols : ℤ} {V : List Cell} {n : Cell}
    (hn : inBounds rows cols n) (hnV : n ∉ V) :
    unvisited rows cols (n :: V) + 1 = unvisited rows cols V := by
  have hmem : n ∈ (gridCells rows cols).filter (fun c => c ∉ V) :=
    Finset.mem_filter.mpr ⟨mem_gridCells.mpr hn, hnV⟩
  have hfe : (gridCells rows cols).filter (fun c => c ∉ n :: V)
      = ((gridCells rows cols).filter (fun c => c ∉ V)).erase n := by
    ext x
    simp only [Finset.mem_filter, Finset.mem_erase, List.mem_cons]
    tauto
  have hpos : 0 < ((gridCells rows cols).filter (fun c => c ∉ V)).card :=
    Finset.card_pos.mpr ⟨n, hmem⟩
  rw [unvisited, unvisited, hfe, Finset.card_erase_of_mem hmem]
  omega

/-! ### BFS loop invariant -/

/-- A well-formed queue entry `(c, p)`: `p` walks from `s` to `c` in unit
steps and has exactly `mdist s c + 1` cells (each cell is discovered at
its true BFS level, which on the open grid is its Manhattan distance). -/
def goodEntry (s : Cell) (ent : Cell × List Cell) : Prop :=
  ent.2.Chain' adjacent ∧ ent.2.head? = some s ∧
    ent.2.getLast? = some ent.1 ∧ ent.2.length = mdist s ent.1 + 1

lemma exists_cons_of_head? {p : List Cell} {s : Cell} (h : p.head? = some s) :
    ∃ t, p = s :: t := by
  cases p with
  | nil => simp at h
  | cons a t => simp only [List.head?_cons, Option.some.injEq] at h; exact ⟨t, by rw [h]⟩

lemma goodEntry_extend {s c n : Cell} {path : List Cell}
    (hg : goodEntry s (c, path)) (hadj : adjacent c n)
    (hlvl : mdist s n = mdist s c + 1) : goodEntry s (n, path ++ [n]) := by
  obtain ⟨hch, hhd, hlast, hlen⟩ := hg
  refine ⟨?_, ?_, List.getLast?_concat _, ?_⟩
  · rw [List.chain'_append]
    refine ⟨hch, List.chain'_singleton _, ?_⟩
    intro x hx y hy
    simp only [List.head?_cons, Option.mem_def, Option.some.injEq] at hy
    rw [hlast] at hx
    simp only [Option.mem_def, Option.some.injEq] at hx
    subst hx; subst hy; exact hadj
  · obtain ⟨t, rfl⟩ := exists_cons_of_head? hhd
    simp
  · simp only [List.length_append, List.length_singleton] at *
    omega

/-- The invariant of the `while queue` loop.  `k` is the BFS level of the
queue head; the queue holds a block of level-`k` entries followed by a
block of level-`k+1` entries; everything at level `≤ k` (except the
target, which triggers an immediate return on discovery) is visited; and
fully processed cells have all their in-bounds neighbours visited. -/
structure BfsInv (s tgt : Cell) (rows cols : ℤ) (k : ℕ) (V : List Cell)
    (Q : List (Cell × List Cell)) : Prop where
  start_mem : s ∈ V
  vmem : ∀ v ∈ V, inBounds rows cols v ∧ v ≠ tgt
  qgood : ∀ ent ∈ Q, goodEntry s ent
  qsubV : ∀ ent ∈ Q, ent.1 ∈ V
  qnodup : (Q.map Prod.fst).Nodup
  qlevels : ∃ i j, 0 < i ∧ Q.map (fun ent => mdist s ent.1) =
      List.replicate i k ++ List.replicate j (k + 1)
  complete : ∀ v, inBounds rows cols v → v ≠ tgt → mdist s v ≤ k → v ∈ V
  tgt_far : k < mdist s tgt
  closed : ∀ u ∈ V, u ∉ Q.map Prod.fst →
      ∀ d ∈ dirs4, inBounds rows cols (cadd u d) → cadd u d ∈ V

/-- If the visited set is closed under in-bounds steps and contains `s`,
it contains every in-bounds cell (the grid graph is connected). -/
lemma mem_of_closed {rows cols : ℤ} {s : Cell} {V : List Cell}
    (hsB : inBounds rows cols s) (hsV : s ∈ V)
    (hcl : ∀ u ∈ V, ∀ d ∈ dirs4, inBounds rows cols (cadd u d) → cadd u d ∈ V) :
    ∀ v, inBounds rows cols v → v ∈ V := by
  have key : ∀ m v, inBounds rows cols v → mdist s v = m → v ∈ V := by
    intro m
    induction m with
    | zero =>
        intro v _ h0
        have : s = v := mdist_eq_zero_iff.mp h0
        exact this ▸ hsV
    | succ m ih =>
        intro v hv hm
        obtain ⟨u, d, hd, hveq, huB, hmd⟩ := exists_toward hsB hv (by omega)
        have huV : u ∈ V := ih u huB (by omega)
        have := hcl u huV d hd (hveq ▸ hv)
        exact hveq ▸ this
  intro v hv
  exact key (mdist s v) v hv rfl

/-- The state invariant while `bfsExpand` walks the direction list for the
popped entry `(c, path)` at level `k`: `V` and `rest` are the visited set
and queue tail at pop time, `V'`/`Q'` the current ones. -/
structure ExpSt (s tgt : Cell) (rows cols : ℤ) (k : ℕ) (c : Cell)
    (path : List Cell) (V : List Cell) (rest : List (Cell × List Cell))
    (V' : List Cell) (Q' : List (Cell × List Cell)) : Prop where
  oldV : ∀ v ∈ V, v ∈ V'
  vmem : ∀ v ∈ V', inBounds rows cols v ∧ v ≠ tgt
  vnew : ∀ v ∈ V', v ∈ V ∨ (mdist s v = k + 1 ∧ v ∈ Q'.map Prod.fst)
  qsplit : ∃ new, Q' = rest ++ new ∧
      ∀ ent ∈ new, ent.2 = path ++ [ent.1] ∧ mdist s ent.1 = k + 1 ∧ ent.1 ∉ V
  qgood : ∀ ent ∈ Q', goodEntry s ent
  qsubV : ∀ ent ∈ Q', ent.1 ∈ V'
  qnodup : (Q'.map Prod.fst).Nodup
  complete : ∀ v, inBounds rows cols v → v ≠ tgt → mdist s v ≤ k → v ∈ V'
  card_bound : unvisited rows cols V' + Q'.length ≤
      unvisited rows cols V + rest.length

/-- Walking the direction list from a popped level-`k` entry preserves
`ExpSt`; it either returns early with the path extended to the target, or
finishes with every in-bounds neighbour of `c` along the consumed
directions visited. -/
lemma bfsExpand_spec {s tgt : Cell} {rows cols : ℤ} {k : ℕ} {c : Cell}
    {path : List Cell} {V : List Cell} {rest : List (Cell × List Cell)}
    (hDc : mdist s c = k) (hgood : goodEntry s (c, path)) :
    ∀ todo, todo ⊆ dirs4 → ∀ V' Q',
      ExpSt s tgt rows cols k c path V rest V' Q' →
      (∃ V2 Q2, bfsExpand tgt rows cols c path todo V' Q' =
          (some (path ++ [tgt]), V2, Q2) ∧
          ∃ d ∈ dirs4, tgt = cadd c d ∧ inBounds rows cols tgt) ∨
      (∃ V2 Q2, bfsExpand tgt rows cols c path todo V' Q' = (none, V2, Q2) ∧
          ExpSt s tgt rows cols k c path V rest V2 Q2 ∧ (∀ v ∈ V', v ∈ V2) ∧
          (∀ d ∈ todo, inBounds rows cols (cadd c d) → cadd c d ∈ V2)) := by
  intro todo
  induction todo with
  | nil =>
      intro _ V' Q' hst
      right
      exact ⟨V', Q', rfl, hst, fun v hv => hv, by simp⟩
  | cons d ds ih =>
      intro hsub V' Q' hst
      have hd4 : d ∈ dirs4 := hsub (List.mem_cons_self _ _)
      have hds : ds ⊆ dirs4 := fun x hx => hsub (List.mem_cons_of_mem _ hx)
      by_cases hc1 : inBounds rows cols (cadd c d) ∧ cadd c d ∉ V'
      · by_cases hc2 : cadd c d = tgt
        · left
          refine ⟨cadd c d :: V', Q', ?_, d, hd4, hc2.symm, hc2 ▸ hc1.1⟩
          simp only [bfsExpand]
          rw [if_pos hc1, if_pos hc2, hc2]
        · -- the fresh neighbour sits one level deeper: a level-(k-1)
          -- neighbour would already be visited by completeness
          have hlvl : mdist s (cadd c d) = k + 1 := by
            rcases mdist_cadd_step hd4 s c with h | h
            · omega
            · exact absurd (hst.complete _ hc1.1 hc2 (by omega)) hc1.2
          have hnotV : cadd c d ∉ V := fun hmem => hc1.2 (hst.oldV _ hmem)
          obtain ⟨new, hQeq, hnew⟩ := hst.qsplit
          have hst2 : ExpSt s tgt rows cols k c path V rest
              (cadd c d :: V') (Q' ++ [(cadd c d, path ++ [cadd c d])]) := by
            refine ⟨?_, ?_, ?_, ?_, ?_, ?_, ?_, ?_, ?_⟩
            · exact fun v hv => List.mem_cons_of_mem _ (hst.oldV v hv)
            · intro v hv
              rcases List.mem_cons.mp hv with rfl | hv'
              · exact ⟨hc1.1, hc2⟩
              · exact hst.vmem v hv'
            · intro v hv
              rcases List.mem_cons.mp hv with rfl | hv'
              · exact Or.inr ⟨hlvl, by simp⟩
              · rcases hst.vnew v hv' with h | ⟨h1, h2⟩
                · exact Or.inl h
                · refine Or.inr ⟨h1, ?_⟩
                  simp only [List.map_append]
                  exact List.mem_append_left _ h2
            · refine ⟨new ++ [(cadd c d, path ++ [cadd c d])],
                by rw [hQeq, List.append_assoc], ?_⟩
              intro ent hent
              rcases List.mem_append.mp hent with h | h
              · exact hnew ent h
              · simp only [List.mem_singleton] at h
                subst h
                exact ⟨rfl, hlvl, hnotV⟩
            · intro ent hent
              rcases List.mem_append.mp hent with h | h
              · exact hst.qgood ent h
              · simp only [List.mem_singleton] at h
                subst h
                exact goodEntry_extend hgood (adjacent_cadd hd4 c) (by omega)
            · intro ent hent
              rcases List.mem_append.mp hent with h | h
              · exact List.mem_cons_of_mem _ (hst.qsubV ent h)
              · simp only [List.mem_singleton] at h
                subst h
                exact List.mem_cons_self _ _
            · rw [List.map_append, List.nodup_append]
              refine ⟨hst.qnodup, List.nodup_singleton _, ?_⟩
              intro a ha hb
              simp only [List.map_cons, List.map_nil, List.mem_singleton] at hb
              subst hb
              rcases List.mem_map.mp ha with ⟨ent, hent, hfst⟩
              exact hc1.2 (hfst ▸ hst.qsubV ent hent)
            · exact fun v h1 h2 h3 => List.mem_cons_of_mem _ (hst.complete v h1 h2 h3)
            · have hcons := unvisited_cons hc1.1 hc1.2
              have := hst.card_bound
              simp only [List.length_append, List.length_singleton]
              omega
          have hstep : bfsExpand tgt rows cols c path (d :: ds) V' Q' =
              bfsExpand tgt rows cols c path ds (cadd c d :: V')
                (Q' ++ [(cadd c d, path ++ [cadd c d])]) := by
            simp only [bfsExpand]
            rw [if_pos hc1, if_neg hc2]
          rcases ih hds _ _ hst2 with ⟨V2, Q2, heq, hrest⟩ | ⟨V2, Q2, heq, hst3, hmono, hcl⟩
          · left
            exact ⟨V2, Q2, hstep ▸ heq, hrest⟩
          · right
            refine ⟨V2, Q2, hstep ▸ heq, hst3, ?_, ?_⟩
            · exact fun v hv => hmono v (List.mem_cons_of_mem _ hv)
            · intro d' hd' hB
              rcases List.mem_cons.mp hd' with rfl | hd''
              · exact hmono _ (List.mem_cons_self _ _)
              · exact hcl d' hd'' hB
      · have hstep : bfsExpand tgt rows cols c path (d :: ds) V' Q' =
            bfsExpand tgt rows cols c path ds V' Q' := by
          simp only [bfsExpand]
          rw [if_neg hc1]
        rcases ih hds V' Q' hst with ⟨V2, Q2, heq, hrest⟩ | ⟨V2, Q2, heq, hst3, hmono, hcl⟩
        · left
          exact ⟨V2, Q2, hstep ▸ heq, hrest⟩
        · right
          refine ⟨V2, Q2, hstep ▸ heq, hst3, hmono, ?_⟩
          intro d' hd' hB
          rcases List.mem_cons.mp hd' with rfl | hd''
          · push_neg at hc1
            exact hmono _ (hc1 hB)
          · exact hcl d' hd'' hB

/-- With the invariant established and enough fuel, the BFS loop returns a
path of length exactly `mdist s tgt + 1`. -/
lemma bfsLoop_finds {s tgt : Cell} {rows cols : ℤ}
    (hsB : inBounds rows cols s) (htB : inBounds rows cols tgt) :
    ∀ fuel k V Q, BfsInv s tgt rows cols k V Q →
      unvisited rows cols V + Q.length ≤ fuel →
      ∃ p, bfsLoop tgt rows cols fuel V Q = some p ∧ p.head? = some s ∧
        p.getLast? = some tgt ∧ p.Chain' adjacent ∧
        p.length = mdist s tgt + 1 := by
  intro fuel
  induction fuel with
  | zero =>
      intro k V Q hinv hfuel
      exfalso
      obtain ⟨i, j, hi, hmap⟩ := hinv.qlevels
      have hlen : Q.length = i + j := by
        have := congrArg List.length hmap
        simpa using this
      omega
  | succ fuel ih =>
      intro k V Q hinv hfuel
      cases Q with
      | nil =>
          exfalso
          obtain ⟨i, j, hi, hmap⟩ := hinv.qlevels
          have hlen : (0 : ℕ) = i + j := by
            have := congrArg List.length hmap
            simpa using this
          omega
      | cons head rest =>
          obtain ⟨c, path⟩ := head
          obtain ⟨i, j, hi, hmap⟩ := hinv.qlevels
          obtain ⟨i', rfl⟩ : ∃ i', i = i' + 1 := ⟨i - 1, by omega⟩
          rw [List.replicate_succ] at hmap
          simp only [List.map_cons, List.cons_append] at hmap
          injection hmap with hDc hrestmap
          have hgood := hinv.qgood (c, path) (List.mem_cons_self _ _)
          have hst0 : ExpSt s tgt rows cols k c path V rest V rest := by
            refine ⟨fun v hv => hv, hinv.vmem, fun v hv => Or.inl hv,
                ⟨[], by simp, by simp⟩,
                fun ent hent => hinv.qgood ent (List.mem_cons_of_mem _ hent),
                fun ent hent => hinv.qsubV ent (List.mem_cons_of_mem _ hent),
                ?_, hinv.complete, le_refl _⟩
            have hnd := hinv.qnodup
            simp only [List.map_cons] at hnd
            exact hnd.of_cons
          rcases bfsExpand_spec hDc hgood dirs4 (fun x hx => hx) V rest hst0 with
            ⟨V2, Q2, heq, d, hd4, htgteq, _⟩ |
            ⟨V2, Q2, heq, hst2, hmono, hclosure⟩
          · -- the target was discovered while expanding `c`
            have hDtgt : mdist s tgt = k + 1 := by
              rcases mdist_cadd_step hd4 s c with h | h <;> rw [← htgteq] at h
              · omega
              · have := hinv.tgt_far; omega
            obtain ⟨t, hpath⟩ := exists_cons_of_head? hgood.2.1
            refine ⟨path ++ [tgt], ?_, ?_, List.getLast?_concat _, ?_, ?_⟩
            · simp only [bfsLoop]
              rw [heq]
            · show (path ++ [tgt]).head? = some s
              rw [show path = s :: t from hpath]
              simp
            · rw [List.chain'_append]
              refine ⟨hgood.1, List.chain'_singleton _, ?_⟩
              intro x hx y hy
              rw [hgood.2.2.1] at hx
              simp only [List.head?_cons, Option.mem_def, Option.some.injEq] at hx hy
              subst hx; subst hy
              exact htgteq ▸ adjacent_cadd hd4 c
            · have hplen : path.length = mdist s c + 1 := hgood.2.2.2
              simp only [List.length_append, List.length_singleton]
              omega
          · -- no early return: rebuild the invariant, recurse on the fuel
            obtain ⟨new, hQ2eq, hnewprops⟩ := hst2.qsplit
            have hnewlvl : new.map (fun ent => mdist s ent.1) =
                List.replicate new.length (k + 1) := by
              rw [List.eq_replicate_iff]
              refine ⟨by simp, ?_⟩
              intro b hb
              rcases List.mem_map.mp hb with ⟨ent, hent, rfl⟩
              exact (hnewprops ent hent).2.1
            have hQ2lvl : Q2.map (fun ent => mdist s ent.1) =
                List.replicate i' k ++ List.replicate (j + new.length) (k + 1) := by
              rw [hQ2eq, List.map_append, hrestmap, hnewlvl, List.append_assoc,
                ← List.replicate_add]
            have hclosed2 : ∀ u ∈ V2, u ∉ Q2.map Prod.fst →
                ∀ d ∈ dirs4, inBounds rows cols (cadd u d) → cadd u d ∈ V2 := by
              intro u hu hnq d hd hB
              rcases hst2.vnew u hu with huV | ⟨_, hq⟩
              · by_cases huc : u = c
                · subst huc
                  exact hclosure d hd hB
                · have hnotrest : u ∉ rest.map Prod.fst := by
                    intro h
                    apply hnq
                    rw [hQ2eq, List.map_append]
                    exact List.mem_append_left _ h
                  have hnotold : u ∉ ((c, path) :: rest).map Prod.fst := by
                    simp only [List.map_cons, List.mem_cons]
                    rintro (h | h)
                    · exact huc h
                    · exact hnotrest h
                  exact hst2.oldV _ (hinv.closed u huV hnotold d hd hB)
              · exact absurd hq hnq
            have hfb : unvisited rows cols V2 + Q2.length ≤ fuel := by
              have hcb := hst2.card_bound
              simp only [List.length_cons] at hfuel
              omega
            have hstep : ∀ r, bfsLoop tgt rows cols fuel V2 Q2 = r →
                bfsLoop tgt rows cols (fuel + 1) V ((c, path) :: rest) = r := by
              intro r hr
              simp only [bfsLoop]
              rw [heq]
              exact hr
            by_cases hi' : i' = 0
            · subst hi'
              by_cases hQ2nil : Q2 = []
              · -- a fully processed visited set is closed under steps, so it
                -- would contain the target: impossible before returning
                exfalso
                rw [hQ2nil] at hclosed2
                have hall : ∀ v, inBounds rows cols v → v ∈ V2 :=
                  mem_of_closed hsB (hst2.oldV s hinv.start_mem)
                    (fun u hu d hd hB => hclosed2 u hu (by simp) d hd hB)
                exact (hst2.vmem tgt (hall tgt htB)).2 rfl
              · have hpos : 0 < j + new.length := by
                  have hlq := congrArg List.length hQ2lvl
                  simp only [List.length_map, List.length_append,
                    List.length_replicate] at hlq
                  have : Q2.length ≠ 0 := fun h0 =>
                    hQ2nil (List.length_eq_zero.mp h0)
                  omega
                have hlvlmem : ∀ x ∈ Q2.map Prod.fst, mdist s x = k + 1 := by
                  intro x hx
                  rcases List.mem_map.mp hx with ⟨ent, hent, rfl⟩
                  have hmm : mdist s ent.1 ∈ Q2.map (fun ent => mdist s ent.1) :=
                    List.mem_map_of_mem _ hent
                  rw [hQ2lvl] at hmm
                  simp only [List.replicate_zero, List.nil_append] at hmm
                  exact List.eq_of_mem_replicate hmm
                have hcomplete2 : ∀ v, inBounds rows cols v → v ≠ tgt →
                    mdist s v ≤ k + 1 → v ∈ V2 := by
                  intro v hv hvt hle
                  rcases Nat.lt_or_ge (mdist s v) (k + 1) with h | h
                  · exact hst2.complete v hv hvt (by omega)
                  · obtain ⟨u, d, hd, hveq2, huB, hmd⟩ :=
                      exists_toward hsB hv (by omega)
                    have hunt : u ≠ tgt := by
                      intro hh
                      subst hh
                      have := hinv.tgt_far
                      omega
                    have huV2 : u ∈ V2 := hst2.complete u huB hunt (by omega)
                    have hunq : u ∉ Q2.map Prod.fst := by
                      intro hq
                      have := hlvlmem u hq
                      omega
                    exact hveq2 ▸ hclosed2 u huV2 hunq d hd (hveq2 ▸ hv)
                have htf2 : k + 1 < mdist s tgt := by
                  rcases Nat.lt_or_ge (k + 1) (mdist s tgt) with h | h
                  · exact h
                  · exfalso
                    have := hinv.tgt_far
                    obtain ⟨u, d, hd, hveq2, huB, hmd⟩ :=
                      exists_toward hsB htB (by omega)
                    have hunt : u ≠ tgt := by
                      intro hh
                      subst hh
                      omega
                    have huV2 : u ∈ V2 := hst2.complete u huB hunt (by omega)
                    have hunq : u ∉ Q2.map Prod.fst := by
                      intro hq
                      have := hlvlmem u hq
                      omega
                    have htin := hclosed2 u huV2 hunq d hd (hveq2 ▸ htB)
                    exact (hst2.vmem tgt (hveq2 ▸ htin)).2 rfl
                have hinv2 : BfsInv s tgt rows cols (k + 1) V2 Q2 :=
                  ⟨hst2.oldV s hinv.start_mem, hst2.vmem, hst2.qgood,
                    hst2.qsubV, hst2.qnodup,
                    ⟨j + new.length, 0, hpos, by
                      rw [hQ2lvl]
                      simp⟩,
                    hcomplete2, htf2, hclosed2⟩
                obtain ⟨p, hp, hprops⟩ := ih (k + 1) V2 Q2 hinv2 hfb
                exact ⟨p, hstep _ hp, hprops⟩
            · have hinv2 : BfsInv s tgt rows cols k V2 Q2 :=
                ⟨hst2.oldV s hinv.start_mem, hst2.vmem, hst2.qgood,
                  hst2.qsubV, hst2.qnodup,
                  ⟨i', j + new.length, Nat.pos_of_ne_zero hi', hQ2lvl⟩,
                  hst2.complete, hinv.tgt_far, hclosed2⟩
              obtain ⟨p, hp, hprops⟩ := ih k V2 Q2 hinv2 hfb
              exact ⟨p, hstep _ hp, hprops⟩

/-- C1: for every grid with `rows ≥ 1` and `cols ≥ 1` and every pair of
in-bounds points, `bfs_path` returns a path — starting at `start`, ending
at `end`, each consecutive pair one unit apart in exactly one coordinate —
whose length is the Manhattan distance between the points plus one. -/
theorem C1_bfs_path_shortest (grid : List (List ℕ)) (start tgt : Cell)
    (rows cols : ℤ) (hrows : 1 ≤ rows) (hcols : 1 ≤ cols)
    (hs : inBounds rows cols start) (ht : inBounds rows cols tgt) :
    ∃ p, bfs_path grid start tgt rows cols = some p ∧ p.head? = some start ∧
      p.getLast? = some tgt ∧ p.Chain' adjacent ∧
      p.length = mdist start tgt + 1 := by
  by_cases heq : start = tgt
  · subst heq
    refine ⟨[start], ?_, rfl, rfl, List.chain'_singleton _, ?_⟩
    · simp [bfs_path]
    · simp [mdist_self]
  · rw [bfs_path]
    simp only [if_neg heq]
    have hinv : BfsInv start tgt rows cols 0 [start] [(start, [start])] := by
      refine ⟨List.mem_singleton_self _, ?_, ?_, ?_, ?_, ?_, ?_, ?_, ?_⟩
      · intro v hv
        rw [List.mem_singleton] at hv
        subst hv
        exact ⟨hs, heq⟩
      · intro ent hent
        rw [List.mem_singleton] at hent
        subst hent
        exact ⟨List.chain'_singleton _, rfl, rfl, by simp [mdist_self]⟩
      · intro ent hent
        rw [List.mem_singleton] at hent
        subst hent
        exact List.mem_singleton_self _
      · simp
      · exact ⟨1, 0, Nat.one_pos, by simp [mdist_self]⟩
      · intro v hvB hvt hle
        have h0 : mdist start v = 0 := by omega
        rw [List.mem_singleton]
        exact (mdist_eq_zero_iff.mp h0).symm
      · have : mdist start tgt ≠ 0 := fun h0 => heq (mdist_eq_zero_iff.mp h0)
        omega
      · intro u hu hnq
        rw [List.mem_singleton] at hu
        subst hu
        exact absurd (List.mem_singleton_self _) hnq
    have hfb : unvisited rows cols [start] + [(start, [start])].length ≤
        rows.toNat * cols.toNat + 1 := by
      have := unvisited_le rows cols [start]
      simp only [List.length_singleton]
      omega
    exact bfsLoop_finds hs ht _ 0 _ _ hinv hfb

/-! ## Direction rendering and the store grid -/

/-- The `direction_names` lookup of `path_to_directions`, with its
`.get(..., "forward")` default. -/
def direction_name (d : ℤ × ℤ) : String :=
  if d = ((0 : ℤ), (1 : ℤ)) then "right"
  else if d = ((0 : ℤ), (-1 : ℤ)) then "left"
  else if d = ((1 : ℤ), (0 : ℤ)) then "forward"
  else if d = ((-1 : ℤ), (0 : ℤ)) then "back"
  else "forward"

/-- The per-step deltas of a coordinate path. -/
def path_deltas (path : List Cell) : List (ℤ × ℤ) :=
  List.zipWith (fun a b => (b.1 - a.1, b.2 - a.2)) path path.tail

/-- Run-length encoding of consecutive equal deltas: the `while` loops of
`path_to_directions` group maximal runs of same-direction steps. -/
def rle : List (ℤ × ℤ) → List ((ℤ × ℤ) × ℕ)
  | [] => []
  | d :: ds =>
      match rle ds with
      | (d2, m) :: rest2 => if d2 = d then (d, m + 1) :: rest2
          else (d, 1) :: (d2, m) :: rest2
      | [] => [(d, 1)]

/-- `path_to_directions(path)`.  The separator literal is the exact
(mojibake) byte sequence present in the source file. -/
def path_to_directions (path : List Cell) : String :=
  if path.length < 2 then "You\x27re already there!"
  else
    String.intercalate " â†’ "
      ((rle (path_deltas path)).map (fun dn =>
        if dn.2 = 1 then "Go " ++ direction_name dn.1
        else "Go " ++ direction_name dn.1 ++ " for " ++ toString dn.2 ++ " sections"))

/-- One `for aisle in aisles` step of `build_store_grid`: mark the cell
and record the name → coordinate entry when the position is in bounds. -/
def gridStep (rows cols : ℤ) (st : List (List ℕ) × (String → Option Cell))
    (a : Aisle) : List (List ℕ) × (String → Option Cell) :=
  if 0 ≤ a.grid_x ∧ a.grid_x < rows ∧ 0 ≤ a.grid_y ∧ a.grid_y < cols then
    (st.1.set a.grid_x.toNat ((st.1.getD a.grid_x.toNat []).set a.grid_y.toNat 1),
      fun nm => if nm = a.name then some (a.grid_x, a.grid_y) else st.2 nm)
  else st

/-- `build_store_grid()`.  The grid row/column counts come from the
configuration store (an external collaborator), so they are parameters
here; the function returns the occupancy grid and the
`aisle_positions` lookup (a Python dict: later same-name rows win). -/
def build_store_grid (rows cols : ℤ) (aisles : List Aisle) :
    List (List ℕ) × (String → Option Cell) :=
  aisles.foldl (gridStep rows cols)
    (List.replicate rows.toNat (List.replicate cols.toNat 0), fun _ => none)

/-- The result dict of `get_directions_to_product`.  The failure dicts
carry no `steps` key and the first one no target, hence the options. -/
structure DirectionsResult where
  found : Bool
  directions : String
  path : List Cell
  target : Option Cell
  entrance : Cell
  steps : Option ℕ
  deriving DecidableEq, Repr

/-- `get_directions_to_product(product)`.  Entrance coordinates come from
the configuration store, so they are parameters. -/
def get_directions_to_product (rows cols ex ey : ℤ) (aisles : List Aisle)
    (product : Product) : DirectionsResult :=
  let built := build_store_grid rows cols aisles
  let start : Cell := (ex, ey)
  let aisle_name := product.aisle_name
  match built.2 aisle_name with
  | none =>
      { found := false
        directions := "Sorry, I couldn\x27t find the location for aisle "
          ++ aisle_name ++ "."
        path := []
        target := none
        entrance := start
        steps := none }
  | some target =>
      match bfs_path built.1 start target rows cols with
      | none =>
          { found := false
            directions := "Sorry, I couldn\x27t find a path to aisle "
              ++ aisle_name ++ "."
            path := []
            target := some target
            entrance := start
            steps := none }
      | some path =>
          { found := true
            directions := "Head to **Aisle " ++ aisle_name ++ "** ("
              ++ product.sectionName ++ "): " ++ path_to_directions path
            path := path
            target := some target
            entrance := start
            steps := some (path.length - 1) }

/-- C7: when the entrance coincides with the target aisle's cell, the
directions request yields the single-point path `[p]`, the rendered
"already there" phrase as the step-by-step text, and a success result
with zero steps. -/
theorem C7_directions_idempotent (rows cols ex ey : ℤ) (aisles : List Aisle)
    (product : Product)
    (h : (build_store_grid rows cols aisles).2 product.aisle_name = some (ex, ey)) :
    (get_directions_to_product rows cols ex ey aisles product).path = [(ex, ey)] ∧
    path_to_directions
        (get_directions_to_product rows cols ex ey aisles product).path =
      "You\x27re already there!" ∧
    (get_directions_to_product rows cols ex ey aisles product).directions =
      "Head to **Aisle " ++ product.aisle_name ++ "** (" ++ product.sectionName
        ++ "): " ++ "You\x27re already there!" ∧
    (get_directions_to_product rows cols ex ey aisles product).found = true ∧
    (get_directions_to_product rows cols ex ey aisles product).steps = some 0 := by
  have hb : bfs_path (build_store_grid rows cols aisles).1 (ex, ey) (ex, ey)
      rows cols = some [(ex, ey)] := by
    simp [bfs_path]
  have hphrase : path_to_directions [(ex, ey)] = "You\x27re already there!" := by
    simp [path_to_directions]
  refine ⟨?_, ?_, ?_, ?_, ?_⟩ <;>
    simp [get_directions_to_product, h, hb, hphrase]

/-- C1 witness: instantiation on the default 6×5 grid. -/
theorem C1_bfs_path_shortest_witness :
    ((1 : ℤ) ≤ 6 ∧ (1 : ℤ) ≤ 5 ∧ inBounds 6 5 ((0 : ℤ), (0 : ℤ)) ∧
      inBounds 6 5 ((2 : ℤ), (3 : ℤ))) ∧
    (∃ p, bfs_path [] ((0 : ℤ), (0 : ℤ)) ((2 : ℤ), (3 : ℤ)) 6 5 = some p ∧
      p.head? = some ((0 : ℤ), (0 : ℤ)) ∧ p.getLast? = some ((2 : ℤ), (3 : ℤ)) ∧
      p.Chain' adjacent ∧
      p.length = mdist ((0 : ℤ), (0 : ℤ)) ((2 : ℤ), (3 : ℤ)) + 1) :=
  ⟨⟨by decide, by decide, by decide, by decide⟩,
    C1_bfs_path_shortest [] (0, 0) (2, 3) 6 5 (by decide) (by decide)
      (by decide) (by decide)⟩

/-- A concrete aisle placed at the entrance cell. -/
def c7aisle : Aisle :=
  { name := "A1", sectionName := "Grocery", grid_x := 0, grid_y := 0 }

/-- A concrete product located at the entrance aisle. -/
def c7product : Product :=
  { name := "Sugar", brand := "", category := "", keywords := "",
    aisle_name := "A1", sectionName := "Grocery" }

/-- C7 witness: instantiation with an aisle sitting at the entrance. -/
theorem C7_directions_idempotent_witness :
    ((build_store_grid 6 5 [c7aisle]).2 c7product.aisle_name =
        some ((0 : ℤ), (0 : ℤ))) ∧
    ((get_directions_to_product 6 5 0 0 [c7aisle] c7product).path = [(0, 0)] ∧
      path_to_directions
          (get_directions_to_product 6 5 0 0 [c7aisle] c7product).path =
        "You\x27re already there!" ∧
      (get_directions_to_product 6 5 0 0 [c7aisle] c7product).directions =
        "Head to **Aisle " ++ c7product.aisle_name ++ "** ("
          ++ c7product.sectionName ++ "): " ++ "You\x27re already there!" ∧
      (get_directions_to_product 6 5 0 0 [c7aisle] c7product).found = true ∧
      (get_directions_to_product 6 5 0 0 [c7aisle] c7product).steps = some 0) :=
  ⟨by decide, C7_directions_idempotent 6 5 0 0 [c7aisle] c7product (by decide)⟩

/-- A concrete product whose aisle is absent from an empty aisle table. -/
def c4product : Product :=
  { name := "Sugar", brand := "", category := "", keywords := "",
    aisle_name := "A1", sectionName := "Grocery" }

/-- C4 counterexample: on a missing aisle the failure result records `None`
as the target, not the entrance, so the claim that the entrance appears as
both the entrance and the target bound is false. -/
theorem C4_counterexample :
    (get_directions_to_product 6 5 0 0 [] c4product).found = false ∧
    (get_directions_to_product 6 5 0 0 [] c4product).path = [] ∧
    (get_directions_to_product 6 5 0 0 [] c4product).entrance = (0, 0) ∧
    (get_directions_to_product 6 5 0 0 [] c4product).target = none ∧
    ¬ (get_directions_to_product 6 5 0 0 [] c4product).target =
        some (get_directions_to_product 6 5 0 0 [] c4product).entrance := by
  decide

/-- C4 (amended): for a product whose aisle name is absent from the
aisle-position lookup, `get_directions_to_product` returns (never throws)
a failure result with `found = false`, a templated apology naming the
missing aisle, an empty path, the entrance coordinate as the entrance
bound, and an absent (`None`) target. -/
theorem C4_missing_aisle_failure (rows cols ex ey : ℤ) (aisles : List Aisle)
    (product : Product)
    (h : (build_store_grid rows cols aisles).2 product.aisle_name = none) :
    get_directions_to_product rows cols ex ey aisles product =
      { found := false
        directions := "Sorry, I couldn\x27t find the location for aisle "
          ++ product.aisle_name ++ "."
        path := []
        target := none
        entrance := (ex, ey)
        steps := none } := by
  simp only [get_directions_to_product, h]

/-- C4 witness: instantiation at a concrete missing aisle. -/
theorem C4_missing_aisle_failure_witness :
    (build_store_grid 6 5 []).2 c4product.aisle_name = none ∧
    get_directions_to_product 6 5 0 0 [] c4product =
      { found := false
        directions := "Sorry, I couldn\x27t find the location for aisle "
          ++ c4product.aisle_name ++ "."
        path := []
        target := none
        entrance := (0, 0)
        steps := none } :=
  ⟨by decide, C4_missing_aisle_failure 6 5 0 0 [] c4product (by decide)⟩

/-- The aisle-position lookup stays empty at a name as long as every
aisle row carrying that name is out of bounds. -/
lemma build_lookup_none {rows cols : ℤ} (nm : String) :
    ∀ (aisles : List Aisle) (st : List (List ℕ) × (String → Option Cell)),
      st.2 nm = none →
      (∀ b ∈ aisles, b.name = nm →
        ¬ (0 ≤ b.grid_x ∧ b.grid_x < rows ∧ 0 ≤ b.grid_y ∧ b.grid_y < cols)) →
      (aisles.foldl (gridStep rows cols) st).2 nm = none := by
  intro aisles
  induction aisles with
  | nil => intro st h0 _; exact h0
  | cons b bs ih =>
      intro st h0 hall
      simp only [List.foldl_cons]
      apply ih
      · unfold gridStep
        by_cases hb : 0 ≤ b.grid_x ∧ b.grid_x < rows ∧ 0 ≤ b.grid_y ∧ b.grid_y < cols
        · rw [if_pos hb]
          simp only
          have hne : nm ≠ b.name := by
            intro hnb
            exact hall b (List.mem_cons_self _ _) hnb.symm hb
          rw [if_neg hne]
          exact h0
        · rw [if_neg hb]
          exact h0
      · intro b' hb' hb'nm
        exact hall b' (List.mem_cons_of_mem _ hb') hb'nm

/-- C9: an aisle whose stored grid coordinates are out of bounds is omitted
by the grid builder — the built grid and lookup equal those built without
the row — and (when no in-bounds aisle shares its name) the lookup misses
its name, so a directions request for it fails with `found = false`. -/
theorem C9_out_of_bounds_aisle_omitted (rows cols ex ey : ℤ)
    (pre post : List Aisle) (a : Aisle)
    (hoob : ¬ (0 ≤ a.grid_x ∧ a.grid_x < rows ∧ 0 ≤ a.grid_y ∧ a.grid_y < cols))
    (product : Product) (hname : product.aisle_name = a.name)
    (hnodup : ∀ b ∈ pre ++ post, b.name = a.name →
      ¬ (0 ≤ b.grid_x ∧ b.grid_x < rows ∧ 0 ≤ b.grid_y ∧ b.grid_y < cols)) :
    build_store_grid rows cols (pre ++ a :: post) =
        build_store_grid rows cols (pre ++ post) ∧
    (build_store_grid rows cols (pre ++ a :: post)).2 a.name = none ∧
    (get_directions_to_product rows cols ex ey (pre ++ a :: post) product).found
        = false := by
  have homit : build_store_grid rows cols (pre ++ a :: post) =
      build_store_grid rows cols (pre ++ post) := by
    unfold build_store_grid
    rw [List.foldl_append, List.foldl_append, List.foldl_cons]
    congr 1
    unfold gridStep
    rw [if_neg hoob]
  have hlook : (build_store_grid rows cols (pre ++ a :: post)).2 a.name = none := by
    unfold build_store_grid
    apply build_lookup_none
    · rfl
    · intro b hb hbnm
      rcases List.mem_append.mp hb with h | h
      · exact hnodup b (List.mem_append_left _ h) hbnm
      · rcases List.mem_cons.mp h with rfl | h2
        · exact hoob
        · exact hnodup b (List.mem_append_right _ h2) hbnm
  refine ⟨homit, hlook, ?_⟩
  have : (build_store_grid rows cols (pre ++ a :: post)).2 product.aisle_name
      = none := by rw [hname]; exact hlook
  simp only [get_directions_to_product, this]

/-- A concrete aisle stored outside the default 6×5 grid. -/
def c9aisle : Aisle :=
  { name := "Z9", sectionName := "", grid_x := 10, grid_y := 0 }

/-- A concrete product located at the out-of-bounds aisle. -/
def c9product : Product :=
  { name := "Sugar", brand := "", category := "", keywords := "",
    aisle_name := "Z9", sectionName := "" }

/-- C9 witness: a concrete out-of-bounds aisle on the default 6×5 grid. -/
theorem C9_out_of_bounds_aisle_omitted_witness :
    (¬ (0 ≤ c9aisle.grid_x ∧ c9aisle.grid_x < 6 ∧ 0 ≤ c9aisle.grid_y ∧
        c9aisle.grid_y < 5) ∧
      c9product.aisle_name = c9aisle.name ∧
      (∀ b ∈ ([] ++ [] : List Aisle), b.name = c9aisle.name →
        ¬ (0 ≤ b.grid_x ∧ b.grid_x < 6 ∧ 0 ≤ b.grid_y ∧ b.grid_y < 5))) ∧
    (build_store_grid 6 5 ([] ++ c9aisle :: []) =
        build_store_grid 6 5 ([] ++ []) ∧
      (build_store_grid 6 5 ([] ++ c9aisle :: [])).2 c9aisle.name = none ∧
      (get_directions_to_product 6 5 0 0 ([] ++ c9aisle :: []) c9product).found
        = false) :=
  ⟨⟨by decide, rfl, by intro b hb; cases hb⟩,
    C9_out_of_bounds_aisle_omitted 6 5 0 0 [] [] c9aisle (by decide) c9product
      rfl (by intro b hb; cases hb)⟩

/-! ## Product search (backend/search.py)

The Groq client is absent in the deterministic environment under
verification, so `search_with_llm` returns `None` and `search_products`
always lands in the fuzzy tier.  The external rapidfuzz scorers and the
external spell-checker's per-word treatment are abstract parameters, with
the documented rapidfuzz range `[0, 100]` as a hypothesis where needed. -/

/-- The external collaborators of the fuzzy tier: `fuzz.WRatio`,
`fuzz.partial_ratio` (`pratio`), `fuzz.token_set_ratio` (`tsetratio`),
and the per-word behaviour of `correct_query`'s spell-checkers
(`correctWord`: identity on known words, dictionary correction on words
unknown to both dictionaries). -/
structure FuzzOracle where
  wratio : String → String → ℚ
  pratio : String → String → ℚ
  tsetratio : String → String → ℚ
  correctWord : String → String

/-- The documented range of every rapidfuzz similarity ratio. -/
def FuzzOracle.Bounded (fz : FuzzOracle) : Prop :=
  ∀ a b, (0 ≤ fz.wratio a b ∧ fz.wratio a b ≤ 100) ∧
    (0 ≤ fz.pratio a b ∧ fz.pratio a b ≤ 100) ∧
    (0 ≤ fz.tsetratio a b ∧ fz.tsetratio a b ≤ 100)

/-- `correct_query(query)`: lowercase, split into words, treat each word
through the spell-checking oracle, rejoin with single spaces. -/
def correct_query (cw : String → String) (query : String) : String :=
  String.intercalate " " ((pySplitWs (pyLower query)).map cw)

/-- The static `INTENT_MAP` of backend/search.py, verbatim. -/
def INTENT_MAP : List (String × List String) :=
  [("cold", ["cold", "flu", "fever", "cough", "sardi", "khansi", "bukhar", "paracetamol"]),
   ("headache", ["headache", "pain relief", "paracetamol", "fever"]),
   ("fever", ["fever", "paracetamol", "bukhar", "cold"]),
   ("hungry", ["snack", "biscuit", "chips", "namkeen", "chocolate"]),
   ("thirsty", ["water", "juice", "cold drink", "soda", "paani"]),
   ("breakfast", ["milk", "bread", "butter", "tea", "biscuit", "chai"]),
   ("cooking", ["oil", "spice", "masala", "salt", "rice", "atta"]),
   ("cleaning", ["soap", "hand wash", "sanitizer", "dettol"]),
   ("hair", ["shampoo", "hair care", "hair wash", "conditioner"]),
   ("teeth", ["toothpaste", "dental", "dant manjan"]),
   ("skin", ["face wash", "cream", "soap", "skin care"]),
   ("baby", ["diaper", "baby food", "milk", "powder"]),
   ("sweet", ["chocolate", "biscuit", "ice cream", "candy", "mithai", "sugar"]),
   ("spicy", ["chili", "masala", "mirch", "garam masala"]),
   ("drink", ["cold drink", "juice", "soda", "water", "coke", "pepsi"]),
   ("fruit", ["banana", "apple", "mango", "fruit", "kela", "seb"]),
   ("vegetable", ["tomato", "onion", "peas", "sabji", "tamatar", "pyaaz"])]

/-- One `for intent, keywords in INTENT_MAP.items()` step of
`expand_query`: extend the accumulator when the intent key occurs in the
lowercased query. -/
def expand_step (ql : String) (acc : List String)
    (kv : String × List String) : List String :=
  if pyIn kv.1 ql then acc ++ kv.2 else acc

/-- `expand_query(query)`: the lowercased query plus the synonym lists of
every intent key occurring in it, de-duplicated (Python's `list(set(…))`;
only membership matters, modelled as `dedup`). -/
def expand_query (query : String) : List String :=
  (INTENT_MAP.foldl (expand_step (pyLower query)) [pyLower query]).dedup

/-- Python 3's bankers `round` to an integer. -/
def pyRoundHalfEven (x : ℚ) : ℤ :=
  let f := ⌊x⌋
  let r := x - f
  if r < 1 / 2 then f
  else if 1 / 2 < r then f + 1
  else if 2 ∣ f then f else f + 1

/-- `round(x, 1)` (scores are modelled as exact rationals). -/
def pyRound1 (x : ℚ) : ℚ := (pyRoundHalfEven (10 * x) : ℚ) / 10

/-- A product decorated with its `match_score`, as in
`{**product, "match_score": round(best_score, 1)}`. -/
structure ScoredProduct where
  product : Product
  match_score : ℚ
  deriving DecidableEq, Repr

/-- The per-term combined score from the inner loop of
`search_products_fuzzy`: the weighted field blend followed by the three
override floors. -/
def term_score (fz : FuzzOracle) (p : Product) (term : String) : ℚ :=
  let name := pyLower p.name
  let brand := pyLower p.brand
  let category := pyLower p.category
  let keywords := pyLower p.keywords
  let name_score := max (fz.wratio term name) (fz.pratio term name)
  let brand_score := fz.wratio term brand
  let category_score := fz.wratio term category
  let keyword_score := fz.tsetratio term keywords
  let weighted := name_score * 0.50 + keyword_score * 0.25
    + category_score * 0.15 + brand_score * 0.10
  if pyIn term name then max weighted 95
  else if pyStartsWith name term || pyEndsWith name term then max weighted 92
  else if pyIn term keywords then max weighted 75
  else weighted

/-- `best_score`: maximum per-term score over the expanded terms,
starting from 0. -/
def best_score (fz : FuzzOracle) (terms : List String) (p : Product) : ℚ :=
  terms.foldl (fun b t => max b (term_score fz p t)) 0

/-- Stable descending insertion by `match_score`: an element is placed
before the first strictly-smaller score, after equal ones. -/
def insertScoreDesc (x : ScoredProduct) : List ScoredProduct → List ScoredProduct
  | [] => [x]
  | y :: ys => if y.match_score ≤ x.match_score then x :: y :: ys
      else y :: insertScoreDesc x ys

/-- `scored_products.sort(key=…, reverse=True)`: Python's sort is stable,
and a stable descending sort is extensionally unique, so stable insertion
sort models it. -/
def sort_desc (l : List ScoredProduct) : List ScoredProduct :=
  l.foldr insertScoreDesc []

/-- `search_products_fuzzy(query, products, top_n, score_threshold)`. -/
def search_products_fuzzy (fz : FuzzOracle) (query : String)
    (products : List Product) (top_n : ℕ) (score_threshold : ℚ) :
    List ScoredProduct :=
  let corrected_query := correct_query fz.correctWord query
  let expanded_terms := expand_query corrected_query
  let scored_products := products.filterMap (fun p =>
    let best := best_score fz expanded_terms p
    if score_threshold ≤ best then some ⟨p, pyRound1 best⟩ else none)
  (sort_desc scored_products).take top_n

/-- `search_products(query, top_n, score_threshold)`: empty catalog short
circuit, then (with the semantic tier unavailable) the fuzzy tier. -/
def search_products (fz : FuzzOracle) (products : List Product)
    (query : String) (top_n : ℕ) (score_threshold : ℚ) : List ScoredProduct :=
  if products = [] then []
  else search_products_fuzzy fz query products top_n score_threshold

/-- The `/search` endpoint of backend/api.py: strips the query parameter
and rejects a falsy (empty) query with an error response before searching. -/
def search_endpoint (fz : FuzzOracle) (products : List Product) (q : String)
    (top_n : ℕ) : Except String (List ScoredProduct) :=
  let query := pyStrip q
  if query = "" then Except.error "No query provided"
  else Except.ok (search_products fz products query top_n 50)

/-! ### Rounding bounds -/

lemma pyRoundHalfEven_ge (x : ℚ) : x - 1 / 2 ≤ (pyRoundHalfEven x : ℚ) := by
  have hf1 : (⌊x⌋ : ℚ) ≤ x := Int.floor_le x
  have hf2 : x - 1 < (⌊x⌋ : ℚ) := Int.sub_one_lt_floor x
  simp only [pyRoundHalfEven]
  split_ifs with h1 h2 h3 <;> push_cast <;> linarith

lemma pyRoundHalfEven_le (x : ℚ) : (pyRoundHalfEven x : ℚ) ≤ x + 1 / 2 := by
  have hf1 : (⌊x⌋ : ℚ) ≤ x := Int.floor_le x
  simp only [pyRoundHalfEven]
  split_ifs with h1 h2 h3 <;> push_cast <;> linarith

/-- A raw score above a threshold rounds to at most `1/20` below it. -/
lemma pyRound1_ge_sub {t x : ℚ} (h : t ≤ x) : t - 1 / 20 ≤ pyRound1 x := by
  have := pyRoundHalfEven_ge (10 * x)
  rw [pyRound1, le_div_iff₀ (by norm_num : (0 : ℚ) < 10)]
  linarith

/-- Rounding cannot drop below an integer bound the raw score meets. -/
lemma pyRound1_ge_int (c : ℤ) {x : ℚ} (h : (c : ℚ) ≤ x) :
    (c : ℚ) ≤ pyRound1 x := by
  have h1 := pyRoundHalfEven_ge (10 * x)
  have h2 : ((10 * c - 1 : ℤ) : ℚ) < (pyRoundHalfEven (10 * x) : ℚ) := by
    push_cast
    linarith
  have h3 : 10 * c - 1 < pyRoundHalfEven (10 * x) := by exact_mod_cast h2
  rw [pyRound1, le_div_iff₀ (by norm_num : (0 : ℚ) < 10)]
  have : 10 * c ≤ pyRoundHalfEven (10 * x) := by omega
  calc (c : ℚ) * 10 = ((10 * c : ℤ) : ℚ) := by push_cast; ring
    _ ≤ _ := by exact_mod_cast this

lemma pyRound1_le_100 {x : ℚ} (h : x ≤ 100) : pyRound1 x ≤ 100 := by
  have h1 := pyRoundHalfEven_le (10 * x)
  have h2 : (pyRoundHalfEven (10 * x) : ℚ) < ((1001 : ℤ) : ℚ) := by
    push_cast
    linarith
  have h3 : pyRoundHalfEven (10 * x) < 1001 := by exact_mod_cast h2
  rw [pyRound1, div_le_iff₀ (by norm_num : (0 : ℚ) < 10)]
  have : pyRoundHalfEven (10 * x) ≤ 1000 := by omega
  calc (pyRoundHalfEven (10 * x) : ℚ) ≤ ((1000 : ℤ) : ℚ) := by exact_mod_cast this
    _ = 100 * 10 := by norm_num

/-! ### The stable descending sort -/

lemma insertScoreDesc_perm (x : ScoredProduct) (l : List ScoredProduct) :
    List.Perm (insertScoreDesc x l) (x :: l) := by
  induction l with
  | nil => exact List.Perm.refl _
  | cons y ys ih =>
      rw [insertScoreDesc]
      split_ifs with h
      · exact List.Perm.refl _
      · exact (ih.cons y).trans (List.Perm.swap x y ys)

lemma sort_desc_perm (l : List ScoredProduct) : List.Perm (sort_desc l) l := by
  induction l with
  | nil => exact List.Perm.refl _
  | cons x xs ih =>
      rw [sort_desc, List.foldr_cons]
      exact (insertScoreDesc_perm x _).trans (ih.cons x)

/-- Non-increasing score order. -/
def ScoreSorted (l : List ScoredProduct) : Prop :=
  l.Pairwise (fun a b => b.match_score ≤ a.match_score)

lemma insertScoreDesc_sorted (x : ScoredProduct) {l : List ScoredProduct}
    (hl : ScoreSorted l) : ScoreSorted (insertScoreDesc x l) := by
  induction l with
  | nil => exact List.pairwise_singleton _ _
  | cons y ys ih =>
      obtain ⟨hy, hys⟩ := List.pairwise_cons.mp hl
      rw [insertScoreDesc]
      split_ifs with h
      · refine List.Pairwise.cons ?_ hl
        intro z hz
        rcases List.mem_cons.mp hz with rfl | hz'
        · exact h
        · exact le_trans (hy z hz') h
      · refine List.Pairwise.cons ?_ (ih hys)
        intro z hz
        have hz' : z = x ∨ z ∈ ys := by
          have := (insertScoreDesc_perm x ys).mem_iff.mp hz
          simpa using this
        rcases hz' with rfl | hz'
        · exact le_of_lt (not_le.mp h)
        · exact hy z hz'

lemma sort_desc_sorted (l : List ScoredProduct) : ScoreSorted (sort_desc l) := by
  induction l with
  | nil => exact List.Pairwise.nil
  | cons x xs ih =>
      rw [sort_desc, List.foldr_cons]
      exact insertScoreDesc_sorted x ih

/-! ### C8: query expansion -/

lemma expand_step_acc_mem {ql : String} {x : String} :
    ∀ (l : List (String × List String)) (acc : List String), x ∈ acc →
      x ∈ l.foldl (expand_step ql) acc := by
  intro l
  induction l with
  | nil => exact fun acc h => h
  | cons kv kvs ih =>
      intro acc h
      rw [List.foldl_cons]
      apply ih
      rw [expand_step]
      split_ifs
      · exact List.mem_append_left _ h
      · exact h

lemma expand_step_syn_mem {ql : String} {kv : String × List String}
    {syn : String} (hsyn : syn ∈ kv.2) (hhit : pyIn kv.1 ql = true) :
    ∀ (l : List (String × List String)) (acc : List String), kv ∈ l →
      syn ∈ l.foldl (expand_step ql) acc := by
  intro l
  induction l with
  | nil => intro acc h; cases h
  | cons kv0 kvs ih =>
      intro acc h
      rcases List.mem_cons.mp h with rfl | h'
      · rw [List.foldl_cons]
        apply expand_step_acc_mem
        rw [expand_step, if_pos hhit]
        exact List.mem_append_right _ hsyn
      · rw [List.foldl_cons]
        exact ih _ h'

/-- C8: `expand_query` returns a de-duplicated, never-empty collection
containing the lowercased input query itself and, for every intent key
occurring as a substring of the query, all of that key's synonyms. -/
theorem C8_expand_query (q : String) :
    (expand_query q).Nodup ∧ pyLower q ∈ expand_query q ∧
    expand_query q ≠ [] ∧
    (∀ kv ∈ INTENT_MAP, pyIn kv.1 (pyLower q) = true →
      ∀ syn ∈ kv.2, syn ∈ expand_query q) := by
  have hmemq : pyLower q ∈ expand_query q := by
    rw [expand_query, List.mem_dedup]
    exact expand_step_acc_mem INTENT_MAP _ (List.mem_singleton_self _)
  refine ⟨List.nodup_dedup _, hmemq, List.ne_nil_of_mem hmemq, ?_⟩
  intro kv hkv hhit syn hsyn
  rw [expand_query, List.mem_dedup]
  exact expand_step_syn_mem hsyn hhit INTENT_MAP _ hkv

/-- C8 witness: instantiation at the query `"cold"`. -/
theorem C8_expand_query_witness :
    (expand_query "cold").Nodup ∧ pyLower "cold" ∈ expand_query "cold" ∧
    expand_query "cold" ≠ [] ∧
    (∀ kv ∈ INTENT_MAP, pyIn kv.1 (pyLower "cold") = true →
      ∀ syn ∈ kv.2, syn ∈ expand_query "cold") :=
  C8_expand_query "cold"

/-! ### Per-term and best-score bounds -/

lemma foldl_max_ge_init (f : String → ℚ) :
    ∀ (l : List String) (a : ℚ), a ≤ l.foldl (fun b t => max b (f t)) a := by
  intro l
  induction l with
  | nil => exact fun a => le_refl a
  | cons t ts ih =>
      intro a
      rw [List.foldl_cons]
      exact le_trans (le_max_left _ _) (ih _)

lemma foldl_max_ge_mem (f : String → ℚ) {t : String} :
    ∀ {l : List String}, t ∈ l → ∀ (a : ℚ),
      f t ≤ l.foldl (fun b t => max b (f t)) a := by
  intro l
  induction l with
  | nil => intro h; cases h
  | cons t0 ts ih =>
      intro h a
      rcases List.mem_cons.mp h with rfl | h'
      · rw [List.foldl_cons]
        exact le_trans (le_max_right _ _) (foldl_max_ge_init _ _ _)
      · rw [List.foldl_cons]
        exact ih h' _

lemma foldl_max_le (f : String → ℚ) (c : ℚ) :
    ∀ (l : List String), (∀ t ∈ l, f t ≤ c) → ∀ (a : ℚ), a ≤ c →
      l.foldl (fun b t => max b (f t)) a ≤ c := by
  intro l
  induction l with
  | nil => exact fun _ a ha => ha
  | cons t ts ih =>
      intro hall a ha
      rw [List.foldl_cons]
      exact ih (fun u hu => hall u (List.mem_cons_of_mem _ hu)) _
        (max_le ha (hall t (List.mem_cons_self _ _)))

lemma term_score_le_best {fz : FuzzOracle} {terms : List String} {p : Product}
    {t : String} (ht : t ∈ terms) : term_score fz p t ≤ best_score fz terms p :=
  foldl_max_ge_mem _ ht 0

/-- The substring override: a term occurring in the lowercased name floors
the per-term score at 95. -/
lemma term_score_substring_ge {fz : FuzzOracle} {p : Product} {t : String}
    (h : pyIn t (pyLower p.name) = true) : 95 ≤ term_score fz p t := by
  rw [term_score]
  simp only [h, if_true]
  exact le_max_right _ _

lemma term_score_le_100 {fz : FuzzOracle} (hb : fz.Bounded) (p : Product)
    (t : String) : term_score fz p t ≤ 100 := by
  obtain ⟨⟨hw1, hw2⟩, ⟨hp1, hp2⟩, ht1, ht2⟩ := hb t (pyLower p.name)
  obtain ⟨⟨hb1, hb2⟩, -, -⟩ := hb t (pyLower p.brand)
  obtain ⟨⟨hc1, hc2⟩, -, -⟩ := hb t (pyLower p.category)
  obtain ⟨-, -, hk1, hk2⟩ := hb t (pyLower p.keywords)
  rw [term_score]
  have hmax : max (fz.wratio t (pyLower p.name)) (fz.pratio t (pyLower p.name)) ≤ 100 :=
    max_le hw2 hp2
  split_ifs <;>
    [exact max_le (by nlinarith) (by norm_num);
     exact max_le (by nlinarith) (by norm_num);
     exact max_le (by nlinarith) (by norm_num);
     nlinarith]

lemma best_score_le_100 {fz : FuzzOracle} (hb : fz.Bounded) (terms : List String)
    (p : Product) : best_score fz terms p ≤ 100 :=
  foldl_max_le _ 100 terms (fun t _ => term_score_le_100 hb p t) 0 (by norm_num)

/-- C3: a term of the expanded (corrected) query that is an exact substring
of the product's lowercased name floors the per-term combined score at 95,
and therefore the product's final fuzzy score (the rounded best score over
all expanded terms) is at least 95. -/
theorem C3_substring_scores_95 (fz : FuzzOracle) (q : String) (p : Product)
    (term : String)
    (hterm : term ∈ expand_query (correct_query fz.correctWord q))
    (hsub : pyIn term (pyLower p.name) = true) :
    95 ≤ term_score fz p term ∧
    95 ≤ best_score fz (expand_query (correct_query fz.correctWord q)) p ∧
    95 ≤ pyRound1
      (best_score fz (expand_query (correct_query fz.correctWord q)) p) := by
  have h1 : (95 : ℚ) ≤ term_score fz p term := term_score_substring_ge hsub
  have h2 := le_trans h1 (term_score_le_best hterm)
  refine ⟨h1, h2, ?_⟩
  have := pyRound1_ge_int 95 (by exact_mod_cast h2)
  exact_mod_cast this

/-- The all-zero scorer oracle with identity word correction, used to
instantiate witnesses. -/
def fz0 : FuzzOracle :=
  { wratio := fun _ _ => 0, pratio := fun _ _ => 0,
    tsetratio := fun _ _ => 0, correctWord := fun w => w }

/-- A concrete catalog row named `milk`. -/
def c3prod : Product :=
  { name := "milk", brand := "", category := "", keywords := "",
    aisle_name := "A1", sectionName := "" }

/-- C3 witness: the literal query `"milk"` against a product named
`milk`. -/
theorem C3_substring_scores_95_witness :
    ("milk" ∈ expand_query (correct_query fz0.correctWord "milk") ∧
      pyIn "milk" (pyLower c3prod.name) = true) ∧
    (95 ≤ term_score fz0 c3prod "milk" ∧
      95 ≤ best_score fz0 (expand_query (correct_query fz0.correctWord "milk"))
        c3prod ∧
      95 ≤ pyRound1 (best_score fz0
        (expand_query (correct_query fz0.correctWord "milk")) c3prod)) :=
  ⟨⟨by decide, by decide⟩,
    C3_substring_scores_95 fz0 "milk" c3prod "milk" (by decide) (by decide)⟩

/-- C10: the starts-with/ends-with branch is dead code — a prefix or
suffix is always a substring, so the 95 floor fires first and the
per-term score is at least 95. -/
theorem C10_prefix_suffix_unreachable (fz : FuzzOracle) (p : Product)
    (term : String)
    (h : pyStartsWith (pyLower p.name) term = true ∨
      pyEndsWith (pyLower p.name) term = true) :
    pyIn term (pyLower p.name) = true ∧ 95 ≤ term_score fz p term := by
  have hsub : pyIn term (pyLower p.name) = true := by
    rcases h with h | h
    · exact listSubstr_of_isPrefixOf h
    · exact listSubstr_of_suffix (List.isSuffixOf_iff_suffix.mp h)
  exact ⟨hsub, term_score_substring_ge hsub⟩

/-- C10 witness: the term `"mi"` is a prefix of the name `milk`. -/
theorem C10_prefix_suffix_unreachable_witness :
    (pyStartsWith (pyLower c3prod.name) "mi" = true ∨
      pyEndsWith (pyLower c3prod.name) "mi" = true) ∧
    (pyIn "mi" (pyLower c3prod.name) = true ∧ 95 ≤ term_score fz0 c3prod "mi") :=
  ⟨Or.inl (by decide),
    C10_prefix_suffix_unreachable fz0 c3prod "mi" (Or.inl (by decide))⟩

/-! ### C6: the empty query -/

lemma listSubstr_nil_left (l : List Char) : listSubstr [] l = true := by
  cases l <;> simp [listSubstr, List.isPrefixOf]

/-- The empty string is a Python substring of every string. -/
lemma pyIn_empty_needle (s : String) : pyIn "" s = true :=
  listSubstr_nil_left s.data

lemma filterMap_length_of_all {α β : Type} {f : α → Option β} :
    ∀ {l : List α}, (∀ a ∈ l, (f a).isSome = true) →
      (l.filterMap f).length = l.length := by
  intro l
  induction l with
  | nil => intro _; rfl
  | cons a t ih =>
      intro h
      rw [List.filterMap_cons]
      cases hf : f a with
      | none =>
          have := h a (List.mem_cons_self _ _)
          rw [hf] at this
          simp at this
      | some b =>
          simp only [List.length_cons]
          rw [ih (fun x hx => h x (List.mem_cons_of_mem _ hx))]

lemma pyRoundHalfEven_intCast (z : ℤ) : pyRoundHalfEven (z : ℚ) = z := by
  norm_num [pyRoundHalfEven, Int.floor_intCast]

lemma pyRound1_95 : pyRound1 (95 : ℚ) = 95 := by
  have h : (10 * (95 : ℚ)) = ((950 : ℤ) : ℚ) := by norm_num
  rw [pyRound1, h, pyRoundHalfEven_intCast]
  norm_num

/-- A concrete one-product catalog. -/
def c6prod : Product :=
  { name := "Sugar", brand := "", category := "", keywords := "",
    aisle_name := "A1", sectionName := "" }

lemma c6_term_score : term_score fz0 c6prod "" = 95 := by
  have hin : pyIn "" (pyLower c6prod.name) = true := pyIn_empty_needle _
  simp only [term_score, fz0, hin, if_true]
  norm_num

lemma c6_best_score :
    best_score fz0 (expand_query (correct_query fz0.correctWord "")) c6prod
      = 95 := by
  have hterms : expand_query (correct_query fz0.correctWord "") = [""] := by
    decide
  rw [hterms, best_score, List.foldl_cons, List.foldl_nil, c6_term_score]
  norm_num

/-- C6 counterexample: the core search has no empty-query guard — on a
nonempty catalog the empty query matches every product through the
empty-substring override and returns it with score 95, so the search
operation does not return an empty result set. -/
theorem C6_counterexample :
    search_products fz0 [c6prod] "" 5 50 =
      [{ product := c6prod, match_score := 95 }] ∧
    ¬ search_products fz0 [c6prod] "" 5 50 = [] := by
  have hres : search_products fz0 [c6prod] "" 5 50 =
      [{ product := c6prod, match_score := 95 }] := by
    rw [search_products, if_neg (by simp), search_products_fuzzy]
    simp only [List.filterMap_cons, List.filterMap_nil, c6_best_score]
    rw [if_pos (by norm_num : (50 : ℚ) ≤ 95), pyRound1_95]
    rfl
  exact ⟨hres, by rw [hres]; simp⟩

/-- C6 (amended): the HTTP search endpoint rejects an empty (after
stripping) query with an error response before any ranking; the core
search function itself does not special-case the empty query — on a
nonempty catalog, the empty string is a substring of every product name,
so every product scores at least 95, passes the default threshold, and
`min top_n catalog-size` products are returned. -/
theorem C6_empty_query_behaviour (fz : FuzzOracle) (products : List Product)
    (q : String) (n : ℕ) (hq : pyStrip q = "") (hne : products ≠ []) :
    search_endpoint fz products q n = Except.error "No query provided" ∧
    (search_products fz products "" n 50).length = min n products.length ∧
    (∀ r ∈ search_products fz products "" n 50, 95 ≤ r.match_score) := by
  have hcq : correct_query fz.correctWord "" = "" := rfl
  have hexp : expand_query (correct_query fz.correctWord "") = [""] := by
    rw [hcq]
    decide
  have hbest : ∀ p : Product,
      (95 : ℚ) ≤ best_score fz (expand_query (correct_query fz.correctWord "")) p := by
    intro p
    have h95 : (95 : ℚ) ≤ term_score fz p "" :=
      term_score_substring_ge (pyIn_empty_needle _)
    have hmem : "" ∈ expand_query (correct_query fz.correctWord "") := by
      rw [hexp]
      exact List.mem_singleton_self _
    exact le_trans h95 (term_score_le_best hmem)
  have hsp : search_products fz products "" n 50 =
      search_products_fuzzy fz "" products n 50 := by
    rw [search_products, if_neg hne]
  have hsome : ∀ p ∈ products,
      ((fun p => if (50 : ℚ) ≤
          best_score fz (expand_query (correct_query fz.correctWord "")) p then
            some (⟨p, pyRound1 (best_score fz
              (expand_query (correct_query fz.correctWord "")) p)⟩ : ScoredProduct)
          else none) p).isSome = true := by
    intro p _
    simp only [if_pos (le_trans (by norm_num : (50 : ℚ) ≤ 95) (hbest p)),
      Option.isSome_some]
  refine ⟨?_, ?_, ?_⟩
  · simp [search_endpoint, hq]
  · rw [hsp, search_products_fuzzy]
    rw [List.length_take, (sort_desc_perm _).length_eq, filterMap_length_of_all hsome]
  · intro r hr
    rw [hsp, search_products_fuzzy] at hr
    have hr2 := (sort_desc_perm _).mem_iff.mp (List.take_subset _ _ hr)
    rcases List.mem_filterMap.mp hr2 with ⟨p, hp, hfp⟩
    simp only at hfp
    rw [if_pos (le_trans (by norm_num : (50 : ℚ) ≤ 95) (hbest p))] at hfp
    obtain rfl := Option.some.inj hfp
    exact_mod_cast pyRound1_ge_int 95 (by exact_mod_cast hbest p)

/-- C6 witness: a concrete whitespace query over a one-product catalog. -/
theorem C6_empty_query_behaviour_witness :
    (pyStrip "  " = "" ∧ [c6prod] ≠ []) ∧
    (search_endpoint fz0 [c6prod] "  " 5 = Except.error "No query provided" ∧
      (search_products fz0 [c6prod] "" 5 50).length = min 5 [c6prod].length ∧
      (∀ r ∈ search_products fz0 [c6prod] "" 5 50, 95 ≤ r.match_score)) :=
  ⟨⟨by decide, by decide⟩,
    C6_empty_query_behaviour fz0 [c6prod] "  " 5 (by decide) (by decide)⟩

/-! ### C2: shape of the fuzzy ranking -/

/-- A bounded scorer oracle under which a product's raw best score is
`50.04`: full name similarity, token-set similarity `0.16`. -/
def fzc2 : FuzzOracle :=
  { wratio := fun _ b => if b = "aa" then 100 else 0
    pratio := fun _ _ => 0
    tsetratio := fun _ _ => 4 / 25
    correctWord := fun w => w }

/-- A doubled catalog row (Python lists admit duplicates). -/
def c2prod : Product :=
  { name := "aa", brand := "", category := "", keywords := "",
    aisle_name := "", sectionName := "" }

lemma c2_terms : expand_query (correct_query fzc2.correctWord "bb") = ["bb"] := by
  decide

lemma c2_term_score : term_score fzc2 c2prod "bb" = 1251 / 25 := by
  have hwn : fzc2.wratio "bb" (pyLower c2prod.name) = 100 := by
    show (if pyLower c2prod.name = "aa" then (100 : ℚ) else 0) = 100
    rw [if_pos (by decide)]
  have hwb : fzc2.wratio "bb" (pyLower c2prod.brand) = 0 := by
    show (if pyLower c2prod.brand = "aa" then (100 : ℚ) else 0) = 0
    rw [if_neg (by decide)]
  have hwc : fzc2.wratio "bb" (pyLower c2prod.category) = 0 := by
    show (if pyLower c2prod.category = "aa" then (100 : ℚ) else 0) = 0
    rw [if_neg (by decide)]
  simp only [term_score, hwn, hwb, hwc,
    show fzc2.pratio "bb" (pyLower c2prod.name) = 0 from rfl,
    show fzc2.tsetratio "bb" (pyLower c2prod.keywords) = 4 / 25 from rfl,
    show pyIn "bb" (pyLower c2prod.name) = false from by decide,
    show pyStartsWith (pyLower c2prod.name) "bb" = false from by decide,
    show pyEndsWith (pyLower c2prod.name) "bb" = false from by decide,
    show pyIn "bb" (pyLower c2prod.keywords) = false from by decide,
    Bool.or_self, Bool.false_eq_true, if_false]
  rw [max_eq_left (by norm_num : (0 : ℚ) ≤ 100)]
  norm_num

lemma c2_best :
    best_score fzc2 (expand_query (correct_query fzc2.correctWord "bb")) c2prod
      = 1251 / 25 := by
  rw [c2_terms, best_score, List.foldl_cons, List.foldl_nil, c2_term_score]
  rw [max_eq_right (by norm_num : (0 : ℚ) ≤ 1251 / 25)]

lemma c2_round : pyRound1 (1251 / 25 : ℚ) = 50 := by
  have hf : ⌊(10 * (1251 / 25 : ℚ))⌋ = 500 := by
    apply Int.floor_eq_iff.mpr
    constructor <;> norm_num
  simp only [pyRound1, pyRoundHalfEven, hf]
  rw [if_pos (by push_cast; norm_num :
    (10 * (1251 / 25 : ℚ)) - ((500 : ℤ) : ℚ) < 1 / 2)]
  push_cast
  norm_num

/-- C2 counterexample: under a bounded scorer two identical catalog rows
tie, so the output is not strictly sorted; and with threshold `50.03` a
raw score of `50.04` rounds to `50.0`, below the threshold — so the
returned scores do not lie in `[threshold, 100]`. -/
theorem C2_counterexample :
    fzc2.Bounded ∧
    search_products_fuzzy fzc2 "bb" [c2prod, c2prod] 5 (5003 / 100) =
      [{ product := c2prod, match_score := 50 },
        { product := c2prod, match_score := 50 }] ∧
    ¬ ((search_products_fuzzy fzc2 "bb" [c2prod, c2prod] 5 (5003 / 100)).map
        (fun r => r.match_score)).Pairwise (fun a b => b < a) ∧
    ¬ (∀ r ∈ search_products_fuzzy fzc2 "bb" [c2prod, c2prod] 5 (5003 / 100),
        (5003 / 100 : ℚ) ≤ r.match_score) := by
  have hbounded : fzc2.Bounded := by
    intro a b
    refine ⟨⟨?_, ?_⟩, ⟨by norm_num [fzc2], by norm_num [fzc2]⟩,
      by norm_num [fzc2], by norm_num [fzc2]⟩
    · show (0 : ℚ) ≤ if b = "aa" then 100 else 0
      split_ifs <;> norm_num
    · show (if b = "aa" then (100 : ℚ) else 0) ≤ 100
      split_ifs <;> norm_num
  have hres : search_products_fuzzy fzc2 "bb" [c2prod, c2prod] 5 (5003 / 100) =
      [{ product := c2prod, match_score := 50 },
        { product := c2prod, match_score := 50 }] := by
    rw [search_products_fuzzy]
    simp only [List.filterMap_cons, List.filterMap_nil, c2_best]
    rw [if_pos (by norm_num : (5003 / 100 : ℚ) ≤ 1251 / 25), c2_round]
    simp only [sort_desc, List.foldr_cons, List.foldr_nil, insertScoreDesc]
    rw [if_pos (le_refl (50 : ℚ))]
    rfl
  refine ⟨hbounded, hres, ?_, ?_⟩
  · rw [hres]
    intro hpw
    simp only [List.map_cons, List.map_nil] at hpw
    rcases List.pairwise_cons.mp hpw with ⟨h1, -⟩
    exact absurd (h1 _ (List.mem_cons_self _ _)) (lt_irrefl _)
  · intro hall
    rw [hres] at hall
    have h1 := hall { product := c2prod, match_score := 50 }
      (List.mem_cons_self _ _)
    norm_num at h1

/-- C2 (amended): for every bounded scorer oracle, non-empty catalog,
query, `top_n` and threshold, the fuzzy ranker returns at most `top_n`
results sorted by non-increasing (ties allowed) score; each returned score
is the product's raw best score — which lies in `[threshold, 100]` —
rounded to one decimal, hence lies in `[threshold − 0.05, 100]`. -/
theorem C2_rank_shape (fz : FuzzOracle) (q : String) (products : List Product)
    (top_n : ℕ) (t : ℚ) (hb : fz.Bounded) (hne : products ≠ []) :
    (search_products_fuzzy fz q products top_n t).length ≤ top_n ∧
    ((search_products_fuzzy fz q products top_n t).map
      (fun r => r.match_score)).Pairwise (fun a b => b ≤ a) ∧
    ∀ r ∈ search_products_fuzzy fz q products top_n t,
      t - 1 / 20 ≤ r.match_score ∧ r.match_score ≤ 100 := by
  refine ⟨?_, ?_, ?_⟩
  · rw [search_products_fuzzy, List.length_take]
    exact min_le_left _ _
  · rw [search_products_fuzzy, List.pairwise_map]
    exact (sort_desc_sorted _).sublist (List.take_sublist _ _)
  · intro r hr
    rw [search_products_fuzzy] at hr
    have hr2 := (sort_desc_perm _).mem_iff.mp (List.take_subset _ _ hr)
    rcases List.mem_filterMap.mp hr2 with ⟨p, hp, hfp⟩
    simp only at hfp
    by_cases hc : t ≤ best_score fz (expand_query (correct_query fz.correctWord q)) p
    · rw [if_pos hc] at hfp
      obtain rfl := Option.some.inj hfp
      exact ⟨pyRound1_ge_sub hc, pyRound1_le_100 (best_score_le_100 hb _ p)⟩
    · rw [if_neg hc] at hfp
      cases hfp

/-- C2 witness: the zero oracle over a one-product catalog. -/
theorem C2_rank_shape_witness :
    (fz0.Bounded ∧ [c2prod] ≠ []) ∧
    ((search_products_fuzzy fz0 "x" [c2prod] 5 50).length ≤ 5 ∧
      ((search_products_fuzzy fz0 "x" [c2prod] 5 50).map
        (fun r => r.match_score)).Pairwise (fun a b => b ≤ a) ∧
      ∀ r ∈ search_products_fuzzy fz0 "x" [c2prod] 5 50,
        (50 : ℚ) - 1 / 20 ≤ r.match_score ∧ r.match_score ≤ 100) :=
  ⟨⟨fun a b => by norm_num [fz0], by decide⟩,
    C2_rank_shape fz0 "x" [c2prod] 5 50 (fun a b => by norm_num [fz0])
      (by decide)⟩

/-! ## Response orchestrator (backend/ai_pipeline.py)

`generate_llm_response` in the source returns
`generate_fallback_response(messages)` unconditionally ("Ollama too slow
on CPU for any model"), so the orchestrator's reply is the deterministic
rule-based fallback.  `random.choice` is modelled by an injected seed
picking an element of the fixed list.  Messages are modelled by their
content strings: the fallback reads only `messages[-1]["content"]`. -/

/-- Python `s.split(sep)` for a one-character separator (keeps empty
pieces). -/
def pySplitOn (sep : Char) (s : String) : List String :=
  (splitChars (fun c => c = sep) s.data).map (fun w => (⟨w⟩ : String))

/-- Replace every occurrence of `pat`, left to right, non-overlapping;
fuel recursion on the text length (the source only calls it with the
non-empty patterns `"Location:"` and `"Directions:"`). -/
def replaceAux (pat repl : List Char) : ℕ → List Char → List Char
  | 0, s => s
  | _ + 1, [] => []
  | fuel + 1, c :: t =>
      if pat.isPrefixOf (c :: t) then
        repl ++ replaceAux pat repl fuel ((c :: t).drop pat.length)
      else c :: replaceAux pat repl fuel t

/-- Python `s.replace(old, new)`. -/
def pyReplace (s pat repl : String) : String :=
  ⟨replaceAux pat.data repl.data s.data.length s.data⟩

/-- `random.choice(l)` under an injected pseudo-random seed. -/
def pyChoice (l : List String) (seed : ℕ) : String :=
  l.getD (seed % l.length) ""

/-- The `no_match` reply list of `generate_fallback_response`. -/
def no_match_responses : List String :=
  ["I couldn\x27t find that in our store. Try a different search term or category (e.g., \x27snacks\x27, \x27dairy\x27, \x27personal care\x27).",
   "No exact match. Try broader terms like the product category or brand name.",
   "Sorry, that doesn\x27t seem to be in stock. Can you describe it differently?"]

/-- The `generic` reply list of `generate_fallback_response`. -/
def generic_responses : List String :=
  ["Hi! Type what you\x27re looking for — like \x27milk\x27, \x27shampoo\x27, or \x27something for a cold\x27 — and I\x27ll find it.",
   "I\x27m here to help you find products. What do you need today?",
   "Welcome! Just tell me what you\x27re looking for."]

/-- `format_product_for_llm(product)`, over the modelled fields.  The
price/quantity/shelf/variant lines of the source format fields that no
claim mentions and that the records here do not carry. -/
def format_product_for_llm (p : ScoredProduct) : String :=
  let head := "- **" ++ p.product.name ++ "**"
    ++ (if p.product.brand ≠ "" then " (Brand: " ++ p.product.brand ++ ")" else "")
  let parts := [head]
    ++ (if p.product.category ≠ "" then ["  Category: " ++ p.product.category]
        else [])
    ++ (if p.product.aisle_name ≠ "" then
          ["  Location: Aisle " ++ p.product.aisle_name] else [])
    ++ (if p.product.sectionName ≠ "" then
          ["  Section: " ++ p.product.sectionName] else [])
  String.intercalate "\n" parts

/-- `format_search_results_for_llm(products)`. -/
def format_search_results_for_llm (products : List ScoredProduct) : String :=
  if products = [] then "No matching products found in the store inventory."
  else
    String.intercalate "\n"
      (["Here are the matching products from the store inventory:\n"]
        ++ products.foldr (fun p acc => format_product_for_llm p :: "" :: acc) [])

/-- `build_context_prompt(user_query, search_results, directions_info)`
(the query argument is unused in the source body too). -/
def build_context_prompt (user_query : String)
    (search_results : List ScoredProduct)
    (directions_info : Option DirectionsResult) : String :=
  let _ := user_query
  let parts1 : List String :=
    if search_results ≠ [] then [format_search_results_for_llm search_results]
    else []
  let parts2 := parts1 ++
    (match directions_info with
     | some di => if di.found then ["\nDirections: " ++ di.directions] else []
     | none => [])
  if parts2 ≠ [] then String.intercalate "\n" parts2
  else "No matching products found in the store inventory."

/-- The `location_info` extraction of `generate_fallback_response`: the
first line containing `Location:`, stripped, with the marker removed. -/
def first_location_info (lines : List String) : String :=
  match (lines.filter (fun l => pyIn "Location:" l)).map pyStrip with
  | [] => ""
  | l :: _ => pyStrip (pyReplace l "Location:" "")

/-- The `direction_line` extraction of `generate_fallback_response`: the
first line whose stripped form starts with `Directions:`. -/
def first_direction_line (lines : List String) : String :=
  match lines.find? (fun l => pyStartsWith (pyStrip l) "Directions:") with
  | some line => pyStrip (pyReplace (pyStrip line) "Directions:" "")
  | none => ""

/-- `generate_fallback_response(messages)` with the injected choice seed. -/
def generate_fallback_response (messages : List String) (seed : ℕ) : String :=
  let last_msg := (messages.getLast?).getD ""
  let lines := pySplitOn (Char.ofNat 10) last_msg
  let product_lines := (lines.map pyStrip).filter (fun l => pyStartsWith l "- **")
  if pyIn "matching products from the store inventory" last_msg
      ∧ product_lines ≠ [] then
    let location_info := first_location_info lines
    let direction_line := first_direction_line lines
    let response :=
      if location_info ≠ "" then "📍 Found at **" ++ location_info ++ "**."
      else "Here\x27s what I found."
    if direction_line ≠ "" then response ++ "\n\n🚶 " ++ direction_line
    else response
  else if pyIn "No matching products found" last_msg then
    pyChoice no_match_responses seed
  else pyChoice generic_responses seed

/-- The fixed part of `SYSTEM_PROMPT` before the store name. -/
def SYSTEM_PROMPT_PREFIX : String :=
  "You are a friendly and helpful supermarket shopping assistant. You help customers find products in the store.\n\nRULES:\n1. You ONLY answer questions about products and their locations in THIS store.\n2. When product information is provided in the context, use it to give specific aisle and shelf locations.\n3. If no matching products are found, politely say you couldn\x27t find that product and suggest alternatives.\n4. Keep responses short, conversational, and helpful (2-3 sentences max).\n5. If the customer asks a follow-up, remember the conversation context.\n6. Always mention the aisle name and shelf number when giving directions.\n7. Be warm and use phrases like \"Sure!\", \"Great choice!\", \"Let me help you find that!\"\n8. If asked about things unrelated to the store, politely redirect to shopping assistance.\n\nSTORE NAME: "

/-- `SYSTEM_PROMPT.format(store_name=store_name)`. -/
def system_prompt (store_name : String) : String :=
  SYSTEM_PROMPT_PREFIX ++ store_name ++ "\n"

/-- The result dict of `chat`. -/
structure ChatResult where
  response : String
  products : List ScoredProduct
  directions : Option DirectionsResult
  query : String

/-- `chat(user_query, conversation_history)`: search, directions for the
top hit, context block, then the deterministic reply tier. -/
def chat (fz : FuzzOracle) (rows cols ex ey : ℤ) (aisles : List Aisle)
    (catalog : List Product) (store_name : String) (user_query : String)
    (conversation_history : List String) (seed : ℕ) : ChatResult :=
  let search_results := search_products fz catalog user_query 3 50
  let directions_info := match search_results with
    | [] => none
    | top :: _ => some (get_directions_to_product rows cols ex ey aisles top.product)
  let context := build_context_prompt user_query search_results directions_info
  let system_msg := system_prompt store_name
  let recent := conversation_history.drop (conversation_history.length - 6)
  let augmented_query := "Customer\x27s question: \"" ++ user_query
    ++ "\"\n\nStore inventory search results:\n" ++ context
    ++ "\n\nPlease respond to the customer\x27s question using the information above. Be conversational and helpful."
  let messages := [system_msg] ++ recent ++ [augmented_query]
  { response := generate_fallback_response messages seed
    products := search_results
    directions := directions_info
    query := user_query }

/-! ### Substring occurrences cannot straddle a quote boundary

The augmented prompt embeds the raw user query between two `"` characters;
an occurrence of a quote-free marker phrase therefore lies wholly inside
the fixed prefix, the query, or the fixed tail. -/

lemma listSubstr_append_split {n x y : List Char} :
    listSubstr n (x ++ y) = true ↔
      (∃ s, s <:+ x ∧ s ≠ [] ∧ n.isPrefixOf (s ++ y) = true) ∨
        listSubstr n y = true := by
  induction x with
  | nil =>
      simp only [List.nil_append]
      constructor
      · exact fun h => Or.inr h
      · rintro (⟨s, hs, hne, -⟩ | h)
        · exact absurd (List.eq_nil_of_suffix_nil hs) hne
        · exact h
  | cons c t ih =>
      rw [List.cons_append, listSubstr, Bool.or_eq_true, ih]
      constructor
      · rintro (hp | ⟨s, hs, hne, hpre⟩ | h)
        · exact Or.inl ⟨c :: t, List.suffix_refl _, List.cons_ne_nil _ _,
            by rw [List.cons_append]; exact hp⟩
        · exact Or.inl ⟨s, hs.trans (List.suffix_cons c t), hne, hpre⟩
        · exact Or.inr h
      · rintro (⟨s, hs, hne, hpre⟩ | h)
        · rcases List.suffix_cons_iff.mp hs with rfl | hs'
          · exact Or.inl (by rw [← List.cons_append]; exact hpre)
          · exact Or.inr (Or.inl ⟨s, hs', hne, hpre⟩)
        · exact Or.inr (Or.inr h)

lemma getLast?_of_suffix {s x : List Char} (hs : s <:+ x) (hne : s ≠ []) :
    x.getLast? = s.getLast? := by
  obtain ⟨pre, rfl⟩ := hs
  rw [List.getLast?_append]
  cases hl : s.getLast? with
  | none => exact absurd (List.getLast?_eq_none_iff.mp hl) hne
  | some a => rfl

lemma listSubstr_of_prefix_of_suffix {n s x : List Char} (hs : s <:+ x)
    (hn : n <+: s) : listSubstr n x = true := by
  obtain ⟨pre, rfl⟩ := hs
  refine listSubstr_iff_exists_drop.mpr ⟨pre.length, ?_⟩
  rw [List.drop_left]
  exact List.isPrefixOf_iff_prefix.mpr hn

lemma prefix_of_append_cases {n s y : List Char} (hpre : n <+: (s ++ y)) :
    n <+: s ∨
      (s <+: n ∧ n = s ++ y.take (n.length - s.length) ∧ s.length < n.length) := by
  rcases le_or_lt n.length s.length with hle | hlt
  · left
    have h := List.prefix_iff_eq_take.mp hpre
    rw [List.take_append_of_le_length hle] at h
    exact List.prefix_iff_eq_take.mpr h
  · right
    have h := List.prefix_iff_eq_take.mp hpre
    rw [List.take_append_eq_append_take, List.take_of_length_le (by omega)] at h
    exact ⟨⟨y.take (n.length - s.length), h.symm⟩, h, hlt⟩

/-- If the marker `n` avoids the boundary character `ch`, occurs in none of
the three segments, and `A` ends with `ch` while `C` starts with `ch`, then
`n` does not occur in `A ++ (q ++ C)` for any middle segment `q`. -/
lemma no_straddle {n A q C : List Char} {ch : Char}
    (hA : listSubstr n A = false) (hq : listSubstr n q = false)
    (hC : listSubstr n C = false)
    (hAlast : A.getLast? = some ch) (hChead : C.head? = some ch)
    (hch : ch ∉ n) : listSubstr n (A ++ (q ++ C)) = false := by
  by_contra hcon
  rw [Bool.not_eq_false] at hcon
  rcases listSubstr_append_split.mp hcon with ⟨s, hsA, hne, hpre⟩ | h2
  · have hpre' := List.isPrefixOf_iff_prefix.mp hpre
    rcases prefix_of_append_cases hpre' with hns | ⟨hsn, -, -⟩
    · rw [listSubstr_of_prefix_of_suffix hsA hns] at hA
      cases hA
    · have hslast : s.getLast? = some ch := by
        rw [← getLast?_of_suffix hsA hne]
        exact hAlast
      exact hch (hsn.subset (List.mem_of_mem_getLast? hslast))
  · rcases listSubstr_append_split.mp h2 with ⟨s, hsq, hne, hpre⟩ | h3
    · have hpre' := List.isPrefixOf_iff_prefix.mp hpre
      rcases prefix_of_append_cases hpre' with hns | ⟨-, hdecomp, hlt⟩
      · rw [listSubstr_of_prefix_of_suffix hsq hns] at hq
        cases hq
      · obtain ⟨C', rfl⟩ : ∃ C', C = ch :: C' := by
          cases C with
          | nil => simp at hChead
          | cons c0 C' =>
              simp only [List.head?_cons, Option.some.injEq] at hChead
              exact ⟨C', by rw [hChead]⟩
        obtain ⟨k, hk⟩ : ∃ k, n.length - s.length = k + 1 :=
          ⟨n.length - s.length - 1, by omega⟩
        apply hch
        rw [hdecomp, hk, List.take_succ_cons]
        exact List.mem_append_right _ (List.mem_cons_self _ _)
    · rw [h3] at hC
      cases hC

/-! ### C5: empty catalog -/

/-- The fixed prompt text before the embedded user query (ends with `"`). -/
def AUG_PREFIX : String := "Customer\x27s question: \""

/-- The fixed prompt text after the embedded user query when the catalog
produced no results (starts with `"`). -/
def AUG_TAIL : String :=
  "\"\n\nStore inventory search results:\nNo matching products found in the store inventory.\n\nPlease respond to the customer\x27s question using the information above. Be conversational and helpful."

lemma str_ne_empty_of_length_pos {s : String} (h : 0 < s.length) : s ≠ "" := by
  intro he
  rw [he] at h
  simp [String.length] at h

lemma pyChoice_mem {l : List String} (seed : ℕ) (hne : l ≠ []) :
    pyChoice l seed ∈ l := by
  have hlt : seed % l.length < l.length :=
    Nat.mod_lt _ (List.length_pos.mpr hne)
  rw [pyChoice, List.getD_eq_getElem l _ hlt]
  exact List.getElem_mem _

/-- What the fallback tier replies when the last message embeds a raw
query between the quote boundaries and reports no matching products: the
reply is never empty, and whenever the query itself does not contain the
product-listing marker phrase, the reply is one of the fixed no-match
apologies. -/
lemma fallback_props (q' : String) (seed : ℕ) (msgs : List String)
    (hlast : msgs.getLast? = some (AUG_PREFIX ++ (q' ++ AUG_TAIL))) :
    generate_fallback_response msgs seed ≠ "" ∧
    (pyIn "matching products from the store inventory" q' = false →
      generate_fallback_response msgs seed ∈ no_match_responses) := by
  have hdata : (AUG_PREFIX ++ (q' ++ AUG_TAIL)).data =
      AUG_PREFIX.data ++ (q'.data ++ AUG_TAIL.data) := by
    simp [String.data_append]
  have hB2 : pyIn "No matching products found"
      (AUG_PREFIX ++ (q' ++ AUG_TAIL)) = true := by
    rw [pyIn, hdata]
    apply listSubstr_append_left
    apply listSubstr_append_left
    decide
  rw [generate_fallback_response, hlast]
  simp only [Option.getD_some]
  by_cases h1 : pyIn "matching products from the store inventory"
      (AUG_PREFIX ++ (q' ++ AUG_TAIL)) = true ∧
      ((pySplitOn (Char.ofNat 10) (AUG_PREFIX ++ (q' ++ AUG_TAIL))).map
        pyStrip).filter (fun l => pyStartsWith l "- **") ≠ []
  case pos =>
    rw [if_pos h1]
    have hpos1 : 0 < ("📍 Found at **" : String).length := by decide
    have hpos2 : 0 < ("Here\x27s what I found." : String).length := by decide
    constructor
    · split_ifs <;>
        · apply str_ne_empty_of_length_pos
          try simp only [String.length_append]
          omega
    · intro hq1
      exfalso
      have hfalse : pyIn "matching products from the store inventory"
          (AUG_PREFIX ++ (q' ++ AUG_TAIL)) = false := by
        rw [pyIn, hdata]
        have hA : listSubstr
            "matching products from the store inventory".data
            AUG_PREFIX.data = false := by decide
        have hC : listSubstr
            "matching products from the store inventory".data
            AUG_TAIL.data = false := by decide
        have hAlast : AUG_PREFIX.data.getLast? = some (Char.ofNat 34) := by
          decide
        have hChead : AUG_TAIL.data.head? = some (Char.ofNat 34) := by decide
        have hch : Char.ofNat 34 ∉
            "matching products from the store inventory".data := by decide
        exact no_straddle hA hq1 hC hAlast hChead hch
      rw [h1.1] at hfalse
      cases hfalse
  case neg =>
    rw [if_neg h1, if_pos hB2]
    have hmem : pyChoice no_match_responses seed ∈ no_match_responses :=
      pyChoice_mem seed (by decide)
    refine ⟨?_, fun _ => hmem⟩
    have hall : ∀ s ∈ no_match_responses, s ≠ "" := by decide
    exact hall _ hmem

/-- C5: on an empty catalog the search returns the empty sequence for any
query (never an error), and the orchestrator's reply is a non-empty
deterministic fallback — one of the fixed no-match apology phrasings
whenever the raw query does not itself contain the product-listing marker
phrase. -/
theorem C5_empty_catalog (fz : FuzzOracle) (rows cols ex ey : ℤ)
    (aisles : List Aisle) (store_name user_query : String)
    (hist : List String) (seed : ℕ) (n : ℕ) (t : ℚ) :
    search_products fz [] user_query n t = [] ∧
    (chat fz rows cols ex ey aisles [] store_name user_query hist
      seed).response ≠ "" ∧
    (pyIn "matching products from the store inventory" user_query = false →
      (chat fz rows cols ex ey aisles [] store_name user_query hist
        seed).response ∈ no_match_responses) := by
  have hempty : search_products fz [] user_query n t = [] := by
    rw [search_products, if_pos rfl]
  have h3 : search_products fz [] user_query 3 50 = [] := by
    rw [search_products, if_pos rfl]
  have hctx : build_context_prompt user_query [] none =
      "No matching products found in the store inventory." := rfl
  have hstr : ("\"\n\nStore inventory search results:\n" ++
      ("No matching products found in the store inventory." ++
        "\n\nPlease respond to the customer\x27s question using the information above. Be conversational and helpful.") : String)
      = AUG_TAIL := by decide
  have happ : (chat fz rows cols ex ey aisles [] store_name user_query hist
      seed).response =
      generate_fallback_response
        ([system_prompt store_name] ++ hist.drop (hist.length - 6) ++
          ["Customer\x27s question: \"" ++ user_query
            ++ "\"\n\nStore inventory search results:\n"
            ++ "No matching products found in the store inventory."
            ++ "\n\nPlease respond to the customer\x27s question using the information above. Be conversational and helpful."])
        seed := by
    simp only [chat, h3, hctx]
  have hlast : ([system_prompt store_name] ++ hist.drop (hist.length - 6) ++
      ["Customer\x27s question: \"" ++ user_query
        ++ "\"\n\nStore inventory search results:\n"
        ++ "No matching products found in the store inventory."
        ++ "\n\nPlease respond to the customer\x27s question using the information above. Be conversational and helpful."]).getLast?
      = some (AUG_PREFIX ++ (user_query ++ AUG_TAIL)) := by
    rw [List.getLast?_concat]
    simp only [String.append_assoc]
    rw [hstr]
    rfl
  obtain ⟨hne', hmem'⟩ := fallback_props user_query seed _ hlast
  rw [happ]
  exact ⟨hempty, hne', hmem'⟩

/-- C5 witness: a concrete query over the empty catalog. -/
theorem C5_empty_catalog_witness :
    pyIn "matching products from the store inventory" "hello" = false ∧
    (search_products fz0 [] "hello" 5 50 = [] ∧
      (chat fz0 6 5 0 0 [] [] "My Supermarket" "hello" [] 0).response ≠ "" ∧
      (pyIn "matching products from the store inventory" "hello" = false →
        (chat fz0 6 5 0 0 [] [] "My Supermarket" "hello" [] 0).response
          ∈ no_match_responses)) :=
  ⟨by decide, C5_empty_catalog fz0 6 5 0 0 [] "My Supermarket" "hello" [] 0 5 50⟩

end SSA
